import Mathlib

/-!
Verification of the sprockit.io maze engine (`src/maze/src/lib.rs`).

The Rust library is shallowly embedded as follows:

* `usize` values become `Nat`; the `as i32` casts of the source are modelled
  exactly by `usizeToI32` (truncation to 32 bits, reinterpreted as a signed
  value), and the subsequent `i32` arithmetic is carried out on `Int`.
* `Vec<Tile>` / `Vec<MazeGenerationTile>` become `List` with index access
  `List.getD` and in-place field assignment `List.set`; the source indexes by
  `size * y + x` and so do we.
* `&mut self` methods are modelled by state passing: a method that mutates the
  maze and returns `Result<(), DirectionBlocked>` becomes a function returning
  `Except DirectionBlocked Unit × Maze`, the second component being the state
  after the call (which is the input state whenever the source returns early).
* `thread_rng`-driven shuffling is modelled by passing the shuffled list as a
  parameter; theorems quantify over every permutation of the wall-candidate
  list, which covers every possible shuffle outcome.
* The `assert_eq!(size % 2, 1)` in `generate_random_map` aborts the process in
  Rust; generation is therefore modelled as returning `Option`, with `none` for
  the aborting branch.
* The inner recursive `find` of `generate_random_map` has no structural
  termination measure, so it is embedded with an explicit fuel argument
  returning `none` on fuel exhaustion; the development proves that on the
  union-find forests arising during generation a fuel of `size * size` always
  suffices, so the `none` branch is unreachable there.
-/

/-- `Position` struct of the source: a pair of `usize` coordinates. -/
structure Position where
  x : Nat
  y : Nat
deriving DecidableEq, Repr

instance : Inhabited Position := ⟨⟨0, 0⟩⟩

/-- `TileType` enum of the source. -/
inductive TileType where
  | Blocked
  | Open
deriving DecidableEq, Repr

instance : Inhabited TileType := ⟨TileType.Blocked⟩

/-- `TileVisibility` enum of the source. -/
inductive TileVisibility where
  | Hidden
  | Revealed
deriving DecidableEq, Repr

/-- `Tile` struct of the source. -/
structure Tile where
  tile_type : TileType
  visibility : TileVisibility
deriving DecidableEq, Repr

instance : Inhabited Tile := ⟨⟨TileType.Blocked, TileVisibility.Hidden⟩⟩

/-- `DirectionBlocked` error struct of the source (a unit-like struct). -/
structure DirectionBlocked where
deriving DecidableEq, Repr

/-- `Direction` enum of the source. -/
inductive Direction where
  | Up
  | Down
  | Left
  | Right
deriving DecidableEq, Repr

/-- `NeighbouringTileTypes` struct of the source. -/
structure NeighbouringTileTypes where
  left : TileType
  right : TileType
  up : TileType
  down : TileType
deriving DecidableEq, Repr

/-- `Maze` struct of the source. -/
structure Maze where
  player : Position
  exit : Position
  size : Nat
  map : List Tile
deriving DecidableEq, Repr

/-- `MazeGenerationTile` struct of the source (generation-time working state). -/
structure MazeGenerationTile where
  position : Position
  link : Position
  tile_type : Option TileType
deriving DecidableEq, Repr

instance : Inhabited MazeGenerationTile := ⟨⟨⟨0, 0⟩, ⟨0, 0⟩, none⟩⟩

/-- The `as i32` cast of a `usize` value: truncate to the low 32 bits and
reinterpret as a signed 32-bit value. `Int.bmod n (2 ^ 32)` is exactly this
balanced remainder in `[-2 ^ 31, 2 ^ 31)`. -/
def usizeToI32 (n : Nat) : Int :=
  Int.bmod (n : Int) (2 ^ 32)

/-- `Tile::open()` of the source. -/
def Tile.open : Tile :=
  { tile_type := TileType.Open, visibility := TileVisibility.Hidden }

/-- `Tile::blocked()` of the source. -/
def Tile.blocked : Tile :=
  { tile_type := TileType.Blocked, visibility := TileVisibility.Hidden }

/-- `Tile::reveal(&mut self)` of the source. -/
def Tile.reveal (t : Tile) : Tile :=
  { t with visibility := TileVisibility.Revealed }

/-- `Tile::is_revealed(self)` of the source. -/
def Tile.is_revealed (t : Tile) : Bool :=
  t.visibility = TileVisibility.Revealed

/-- `Maze::to_index` of the source. -/
def Maze.to_index (m : Maze) (x y : Nat) : Nat :=
  m.size * y + x

/-- `Maze::reveal` of the source: `self.map[i].reveal()`. An out-of-range index
panics in Rust and is a no-op here; every call site is in bounds on valid
mazes. -/
def Maze.reveal (m : Maze) (x y : Nat) : Maze :=
  let i := m.to_index x y
  { m with map := m.map.set i (m.map.getD i default).reveal }

/-- `Maze::tile_at` of the source: `self.map[self.to_index(x, y)]`. -/
def Maze.tile_at (m : Maze) (x y : Nat) : Tile :=
  m.map.getD (m.to_index x y) default

/-- `Maze::tile_type_at` of the source (takes `i32` coordinates). -/
def Maze.tile_type_at (m : Maze) (x y : Int) : TileType :=
  if x < 0 ∨ y < 0 ∨ usizeToI32 m.size ≤ x ∨ usizeToI32 m.size ≤ y then
    TileType.Blocked
  else
    (m.tile_at x.toNat y.toNat).tile_type

/-- `Maze::reveal_around_player` of the source. -/
def Maze.reveal_around_player (m : Maze) : Maze :=
  let m1 := m.reveal m.player.x m.player.y
  let m2 := if m1.player.x > 0 then m1.reveal (m1.player.x - 1) m1.player.y else m1
  let m3 := if m2.player.y > 0 then m2.reveal m2.player.x (m2.player.y - 1) else m2
  let m4 := if m3.player.x < m3.size - 1 then m3.reveal (m3.player.x + 1) m3.player.y else m3
  if m4.player.y < m4.size - 1 then m4.reveal m4.player.x (m4.player.y + 1) else m4

/-- `Maze::internal_move_player` of the source. The returned pair is the
`Result` together with the state after the call. -/
def Maze.internal_move_player (m : Maze) (direction : Direction) :
    Except DirectionBlocked Unit × Maze :=
  let xy : Int × Int :=
    match direction with
    | Direction.Up => (usizeToI32 m.player.x, usizeToI32 m.player.y - 1)
    | Direction.Down => (usizeToI32 m.player.x, usizeToI32 m.player.y + 1)
    | Direction.Left => (usizeToI32 m.player.x - 1, usizeToI32 m.player.y)
    | Direction.Right => (usizeToI32 m.player.x + 1, usizeToI32 m.player.y)
  let x := xy.1
  let y := xy.2
  if x < 0 ∨ y < 0 ∨ m.size ≤ x.toNat ∨ m.size ≤ y.toNat ∨
      (m.tile_at x.toNat y.toNat).tile_type = TileType.Blocked then
    (Except.error ⟨⟩, m)
  else
    let moved : Maze := { m with player := ⟨x.toNat, y.toNat⟩ }
    (Except.ok (), moved.reveal_around_player)

/-- The state after `move_player` (discarding the `Result`). -/
def Maze.movePlayerState (m : Maze) (direction : Direction) : Maze :=
  (m.internal_move_player direction).2

/-- `Maze::neighbouring_tile_types` of the source. -/
def Maze.neighbouring_tile_types (m : Maze) : NeighbouringTileTypes :=
  let player_x := usizeToI32 m.player.x
  let player_y := usizeToI32 m.player.y
  { left := m.tile_type_at (player_x - 1) player_y
    right := m.tile_type_at (player_x + 1) player_y
    up := m.tile_type_at player_x (player_y - 1)
    down := m.tile_type_at player_x (player_y + 1) }

/-- `impl Serialize for Tile` of the source: the string a tile serializes to. -/
def Tile.serializeLabel (t : Tile) : String :=
  if t.is_revealed then
    match t.tile_type with
    | TileType.Open => "open"
    | TileType.Blocked => "blocked"
  else
    "hidden"

/-- The inner `Row` serializer of `impl Serialize for Maze`. -/
def serializeRow (row_index : Nat) (player exit : Position) (elements : List Tile) :
    List String :=
  (List.range elements.length).map fun x =>
    if player.x = x ∧ player.y = row_index then "player"
    else if exit.x = x ∧ exit.y = row_index then "exit"
    else (elements.getD x default).serializeLabel

/-- `impl Serialize for Maze` of the source: `size` rows, each the serialized
slice `map[(y * size)..(y * size) + size]`. -/
def Maze.serializeGrid (m : Maze) : List (List String) :=
  (List.range m.size).map fun y =>
    serializeRow y m.player m.exit ((m.map.drop (y * m.size)).take m.size)

/-- Row-major index used throughout `generate_random_map`: `size * p.y + p.x`. -/
def idxOf (size : Nat) (p : Position) : Nat :=
  size * p.y + p.x

/-- Read `map[size * p.y + p.x].link`. -/
def linkAt (size : Nat) (m : List MazeGenerationTile) (p : Position) : Position :=
  (m.getD (idxOf size p) default).link

/-- Read `map[size * p.y + p.x].tile_type`. -/
def typeAt (size : Nat) (m : List MazeGenerationTile) (p : Position) : Option TileType :=
  (m.getD (idxOf size p) default).tile_type

/-- `gen_map[size * pos.y + pos.x].tile_type = t` of the source. -/
def setType (size : Nat) (m : List MazeGenerationTile) (pos : Position) (t : Option TileType) :
    List MazeGenerationTile :=
  m.set (idxOf size pos) { m.getD (idxOf size pos) default with tile_type := t }

/-- `gen_map[size * p.y + p.x].link = q` of the source. -/
def setLink (size : Nat) (m : List MazeGenerationTile) (p q : Position) :
    List MazeGenerationTile :=
  m.set (idxOf size p) { m.getD (idxOf size p) default with link := q }

/-- The inner recursive `find` of `generate_random_map`, with an explicit fuel
argument (the Rust recursion has no structural measure; on the union-find
forests arising during generation a fuel of `size * size` suffices, proven
below). -/
def find (size : Nat) (m : List MazeGenerationTile) :
    Nat → Position → Position → Option (Position × Position)
  | 0, _, _ => none
  | fuel + 1, p, q =>
    let cell_p := linkAt size m p
    let cell_q := linkAt size m q
    if p ≠ cell_p ∨ q ≠ cell_q then find size m fuel cell_p cell_q
    else some (cell_p, cell_q)

/-- Single-argument root lookup: follow `link` until a fixed point, with fuel.
This is the specification-side description of what `find` computes for each of
its two arguments independently. -/
def findRoot (size : Nat) (m : List MazeGenerationTile) :
    Nat → Position → Option Position
  | 0, _ => none
  | fuel + 1, p =>
    let cell_p := linkAt size m p
    if p = cell_p then some p else findRoot size m fuel cell_p

/-- The parity-based initial tile type of `generate_random_map`
(`match (j & 1 == 0, i & 1 == 0)` where `j` is the x and `i` the y
coordinate). -/
def presetTileType (j i : Nat) : Option TileType :=
  if j % 2 = 0 then
    if i % 2 = 0 then some TileType.Open else none
  else
    if i % 2 = 0 then none else some TileType.Blocked

/-- The initial working grid of `generate_random_map`: the double loop
`for i in 0..size { for j in 0..size { gen_map.push(...) } }`. -/
def genInit (size : Nat) : List MazeGenerationTile :=
  (List.range size).flatMap fun i =>
    (List.range size).map fun j =>
      { position := ⟨j, i⟩, link := ⟨j, i⟩, tile_type := presetTileType j i }

/-- `neither_map` of the source: the working-grid entries whose tile type is
still undecided (`None`), in grid order, before shuffling. -/
def neither_map (size : Nat) : List MazeGenerationTile :=
  (genInit size).filter fun t => t.tile_type.isNone

/-- The positions of the undecided ("wall") entries, in grid order. -/
def wallPositions (size : Nat) : List Position :=
  (neither_map size).map fun t => t.position

/-- First `find` argument for a wall candidate `pos`:
`(pos.x + 1, pos.y)` when `pos.y` is even, else `(pos.x, pos.y - 1)`. -/
def wallP (pos : Position) : Position :=
  if pos.y % 2 = 0 then ⟨pos.x + 1, pos.y⟩ else ⟨pos.x, pos.y - 1⟩

/-- Second `find` argument for a wall candidate `pos`:
`(pos.x - 1, pos.y)` when `pos.y` is even, else `(pos.x, pos.y + 1)`. -/
def wallQ (pos : Position) : Position :=
  if pos.y % 2 = 0 then ⟨pos.x - 1, pos.y⟩ else ⟨pos.x, pos.y + 1⟩

/-- The body of the `for i in neither_map` loop of `generate_random_map`:
resolve the two neighbouring cells of the wall candidate to their union-find
roots; if they differ, open the wall and link the first root to the second,
otherwise leave the wall blocked. `find` is run with fuel `size * size`; the
`none` branch is unreachable during generation (proven below). -/
def carveStep (size : Nat) (m : List MazeGenerationTile) (pos : Position) :
    List MazeGenerationTile :=
  match find size m (size * size) (wallP pos) (wallQ pos) with
  | none => m
  | some (p, q) =>
    if p ≠ q then setLink size (setType size m pos (some TileType.Open)) p q
    else setType size m pos (some TileType.Blocked)

/-- `Maze::generate_random_map` of the source. The `assert_eq!(size % 2, 1)`
abort is modelled as `none`; the shuffled wall-candidate order is the
`shuffled` parameter (theorems quantify over every permutation of
`wallPositions size`). The final `x.tile_type.unwrap()` panics on `None` in
Rust; here it is `Option.getD TileType.Blocked`, and the development proves
that after processing all wall candidates no `None` is left, so the default is
never consulted. -/
def generate_random_map (size : Nat) (shuffled : List Position) : Option (List Tile) :=
  if size % 2 = 1 then
    let gen_map := shuffled.foldl (carveStep size) (genInit size)
    some (gen_map.map fun t =>
      { tile_type := t.tile_type.getD TileType.Blocked
        visibility := TileVisibility.Hidden })
  else
    none

/-- `Maze::new` of the source: generate the map, place the player at `(0, 0)`
and the exit at `(size - 1, size - 1)`, then reveal around the player. -/
def Maze.new (size : Nat) (shuffled : List Position) : Option Maze :=
  match generate_random_map size shuffled with
  | none => none
  | some random_map =>
    let maze : Maze :=
      { player := ⟨0, 0⟩
        exit := ⟨size - 1, size - 1⟩
        size := size
        map := random_map }
    some maze.reveal_around_player

/-- A position inside the `size × size` grid. -/
def InBounds (size : Nat) (p : Position) : Prop :=
  p.x < size ∧ p.y < size

instance (size : Nat) (p : Position) : Decidable (InBounds size p) :=
  inferInstanceAs (Decidable (And _ _))

/-- A maze "cell": both coordinates even, in bounds. -/
def IsCell (size : Nat) (p : Position) : Prop :=
  p.x % 2 = 0 ∧ p.y % 2 = 0 ∧ InBounds size p

instance (size : Nat) (p : Position) : Decidable (IsCell size p) :=
  inferInstanceAs (Decidable (And _ _))

/-- A "pillar" position: both coordinates odd, in bounds. -/
def IsPillar (size : Nat) (p : Position) : Prop :=
  p.x % 2 = 1 ∧ p.y % 2 = 1 ∧ InBounds size p

instance (size : Nat) (p : Position) : Decidable (IsPillar size p) :=
  inferInstanceAs (Decidable (And _ _))

/-- A "wall" position: exactly one odd coordinate, in bounds. -/
def IsWall (size : Nat) (p : Position) : Prop :=
  (p.x + p.y) % 2 = 1 ∧ InBounds size p

instance (size : Nat) (p : Position) : Decidable (IsWall size p) :=
  inferInstanceAs (Decidable (And _ _))

/-- `List.set` / `List.getD` interaction: reading after an update. -/
theorem getD_set {α : Type} (l : List α) (i j : Nat) (a d : α) :
    (l.set i a).getD j d = if j = i ∧ j < l.length then a else l.getD j d := by
  simp only [List.getD_eq_getElem?_getD, List.getElem?_set]
  by_cases hij : i = j
  · subst hij
    by_cases hlt : i < l.length
    · simp [hlt]
    · rw [List.getElem?_eq_none (by omega)]
      simp [hlt]
  · rw [if_neg hij, if_neg (fun h => hij h.1.symm)]

/-- `List.map` / `List.getD` interaction on an in-range index. -/
theorem getD_map {α β : Type} (l : List α) (f : α → β) (i : Nat) (d : β) (d0 : α)
    (h : i < l.length) :
    (l.map f).getD i d = f (l.getD i d0) := by
  simp only [List.getD_eq_getElem?_getD, List.getElem?_map]
  rw [List.getElem?_eq_getElem h]
  simp

/-- Length of a `flatMap` over `List.range` whose pieces all have the same
length. -/
theorem flatMap_range_length {α : Type} (f : Nat → List α) (len : Nat)
    (hf : ∀ i, (f i).length = len) :
    ∀ n, ((List.range n).flatMap f).length = n * len := by
  intro n
  induction n with
  | zero => simp
  | succ n ih =>
    rw [List.range_succ, List.flatMap_append, List.length_append, ih]
    simp [hf, Nat.succ_mul]

/-- A `flatMap` over `List.range` whose pieces all have the same length,
indexed piecewise. -/
theorem flatMap_range_getD {α : Type} (f : Nat → List α) (len : Nat) (d : α)
    (hf : ∀ i, (f i).length = len) :
    ∀ (n k j : Nat), k < n → j < len →
      ((List.range n).flatMap f).getD (len * k + j) d = (f k).getD j d := by
  have hlen := flatMap_range_length f len hf
  intro n
  induction n with
  | zero => intro k j hk _; omega
  | succ n ih =>
    intro k j hk hj
    rw [List.range_succ, List.flatMap_append, List.flatMap_cons, List.flatMap_nil,
      List.append_nil]
    rcases Nat.lt_or_ge k n with hkn | hkn
    · rw [List.getD_append _ _ _ _ (by rw [hlen]; calc
        len * k + j < len * k + len := by omega
        _ = (k + 1) * len := by ring
        _ ≤ n * len := Nat.mul_le_mul_right len hkn)]
      exact ih k j hkn hj
    · have hkn' : k = n := by omega
      subst hkn'
      have harith : len * k + j = ((List.range k).flatMap f).length + j := by
        rw [hlen]; ring_nf
      rw [harith, List.getD_append_right _ _ _ _ (by omega)]
      simp

/-- Length of the initial working grid: `size * size`. -/
theorem genInit_length (size : Nat) : (genInit size).length = size * size := by
  rw [genInit, flatMap_range_length _ size (fun i => by simp)]

/-- The initial working grid at an in-bounds position: `position` and `link`
are the position itself, the tile type is the parity preset. -/
theorem genInit_getD (size : Nat) (p : Position) (hp : InBounds size p) :
    (genInit size).getD (idxOf size p) default =
      { position := p, link := p, tile_type := presetTileType p.x p.y } := by
  obtain ⟨hx, hy⟩ := hp
  rw [genInit, idxOf]
  rw [flatMap_range_getD _ size default (fun i => by simp) size p.y p.x hy hx]
  rw [getD_map _ _ _ _ 0 (by simpa using hx)]
  simp [List.getD_eq_getElem?_getD, List.getElem?_range hx]

/-- Row-major indexing is injective on positions with in-range x coordinate. -/
theorem idxOf_inj (size : Nat) {p q : Position} (hp : p.x < size) (hq : q.x < size)
    (h : idxOf size p = idxOf size q) : p = q := by
  have hs : 0 < size := by omega
  have hy : p.y = q.y := by
    have h1 : (size * p.y + p.x) / size = p.y := by
      rw [Nat.mul_add_div hs, Nat.div_eq_of_lt hp, Nat.add_zero]
    have h2 : (size * q.y + q.x) / size = q.y := by
      rw [Nat.mul_add_div hs, Nat.div_eq_of_lt hq, Nat.add_zero]
    rw [idxOf, idxOf] at h
    rw [← h1, ← h2, h]
  have hx : p.x = q.x := by
    rw [idxOf, idxOf, hy] at h
    omega
  cases p; cases q
  simp_all

/-- The index of an in-bounds position is in range of the working grid. -/
theorem idxOf_lt (size : Nat) (p : Position) (hp : InBounds size p) :
    idxOf size p < size * size := by
  obtain ⟨hx, hy⟩ := hp
  calc size * p.y + p.x < size * p.y + size := by omega
  _ = size * (p.y + 1) := by ring
  _ ≤ size * size := Nat.mul_le_mul_left size (by omega)

/-- Setting a tile type does not change any link. -/
theorem linkAt_setType (size : Nat) (m : List MazeGenerationTile) (pos : Position)
    (t : Option TileType) (r : Position) :
    linkAt size (setType size m pos t) r = linkAt size m r := by
  rw [linkAt, linkAt, setType, getD_set]
  split
  · next h => rw [h.1]
  · rfl

/-- Setting a link does not change any tile type. -/
theorem typeAt_setLink (size : Nat) (m : List MazeGenerationTile) (p q : Position)
    (r : Position) :
    typeAt size (setLink size m p q) r = typeAt size m r := by
  rw [typeAt, typeAt, setLink, getD_set]
  split
  · next h => rw [h.1]
  · rfl

/-- Reading a tile type after setting one, on in-bounds positions. -/
theorem typeAt_setType (size : Nat) (m : List MazeGenerationTile) (pos : Position)
    (t : Option TileType) (r : Position) (hpos : InBounds size pos) (hr : InBounds size r)
    (hlen : m.length = size * size) :
    typeAt size (setType size m pos t) r = if r = pos then t else typeAt size m r := by
  rw [typeAt, typeAt, setType, getD_set]
  by_cases h : r = pos
  · subst h
    rw [if_pos ⟨rfl, by rw [hlen]; exact idxOf_lt size r hr⟩, if_pos rfl]
  · rw [if_neg (fun hc => h (idxOf_inj size hr.1 hpos.1 hc.1)), if_neg h]

/-- Reading a link after setting one, on in-bounds positions. -/
theorem linkAt_setLink (size : Nat) (m : List MazeGenerationTile) (p q : Position)
    (r : Position) (hp : InBounds size p) (hr : InBounds size r)
    (hlen : m.length = size * size) :
    linkAt size (setLink size m p q) r = if r = p then q else linkAt size m r := by
  rw [linkAt, linkAt, setLink, getD_set]
  by_cases h : r = p
  · subst h
    rw [if_pos ⟨rfl, by rw [hlen]; exact idxOf_lt size r hr⟩, if_pos rfl]
  · rw [if_neg (fun hc => h (idxOf_inj size hr.1 hp.1 hc.1)), if_neg h]

/-- `setType` preserves the working-grid length. -/
theorem length_setType (size : Nat) (m : List MazeGenerationTile) (pos : Position)
    (t : Option TileType) : (setType size m pos t).length = m.length := by
  rw [setType, List.length_set]

/-- `setLink` preserves the working-grid length. -/
theorem length_setLink (size : Nat) (m : List MazeGenerationTile) (p q : Position) :
    (setLink size m p q).length = m.length := by
  rw [setLink, List.length_set]

/-- `findRoot` is stable under adding fuel. -/
theorem findRoot_mono (size : Nat) (m : List MazeGenerationTile) :
    ∀ (n : Nat) (p r : Position), findRoot size m n p = some r →
      findRoot size m (n + 1) p = some r := by
  intro n
  induction n with
  | zero => intro p r h; exact absurd h (by simp [findRoot])
  | succ n ih =>
    intro p r h
    rw [findRoot] at h ⊢
    by_cases hfix : p = linkAt size m p
    · rwa [if_pos hfix] at h ⊢
    · rw [if_neg hfix] at h ⊢
      exact ih _ r h


/-- `findRoot` is stable under any fuel increase. -/
theorem findRoot_le (size : Nat) (m : List MazeGenerationTile) (n n' : Nat)
    (p r : Position) (hn : n ≤ n') (h : findRoot size m n p = some r) :
    findRoot size m n' p = some r := by
  induction n' with
  | zero =>
    rw [show n = 0 by omega] at h
    exact absurd h (by simp [findRoot])
  | succ n' ih =>
    rcases Nat.lt_or_ge n (n' + 1) with hlt | hge
    · exact findRoot_mono size m n' p r (ih (by omega))
    · rwa [show n = n' + 1 by omega] at h

/-- A root returned by `findRoot` is a fixed point of `link`. -/
theorem findRoot_fixed (size : Nat) (m : List MazeGenerationTile) :
    ∀ (n : Nat) (p r : Position), findRoot size m n p = some r →
      linkAt size m r = r := by
  intro n
  induction n with
  | zero => intro p r h; exact absurd h (by simp [findRoot])
  | succ n ih =>
    intro p r h
    rw [findRoot] at h
    by_cases hfix : p = linkAt size m p
    · rw [if_pos hfix, Option.some_inj] at h
      rw [← h, ← hfix]
    · rw [if_neg hfix] at h
      exact ih _ r h

/-- The coupled recursion `find` computes exactly the two independent root
lookups: if each argument resolves to a root within the given fuel, `find`
with that same fuel returns the pair of roots. -/
theorem find_of_findRoot (size : Nat) (m : List MazeGenerationTile) :
    ∀ (n : Nat) (p q rp rq : Position),
      findRoot size m n p = some rp → findRoot size m n q = some rq →
      find size m n p q = some (rp, rq) := by
  intro n
  induction n with
  | zero => intro p q rp rq hp _; exact absurd hp (by simp [findRoot])
  | succ n ih =>
    intro p q rp rq hp hq
    rw [findRoot] at hp hq
    rw [find]
    by_cases hfp : p = linkAt size m p
    · rw [if_pos hfp, Option.some_inj] at hp
      by_cases hfq : q = linkAt size m q
      · rw [if_pos hfq, Option.some_inj] at hq
        rw [if_neg (by push_neg; exact ⟨hfp, hfq⟩), ← hfp, ← hfq, hp, hq]
      · rw [if_neg hfq] at hq
        rw [if_pos (Or.inr hfq)]
        have hp' : findRoot size m n (linkAt size m p) = some rp := by
          rw [← hfp]
          cases n with
          | zero => exact absurd hq (by simp [findRoot])
          | succ n' => rw [findRoot, if_pos hfp, hp]
        exact ih _ _ rp rq hp' hq
    · rw [if_neg hfp] at hp
      rw [if_pos (Or.inl hfp)]
      have hq' : findRoot size m n (linkAt size m q) = some rq := by
        by_cases hfq : q = linkAt size m q
        · rw [if_pos hfq, Option.some_inj] at hq
          rw [← hfq]
          cases n with
          | zero => exact absurd hp (by simp [findRoot])
          | succ n' => rw [findRoot, if_pos hfq, hq]
        · rwa [if_neg hfq] at hq
      exact ih _ _ rp rq hp hq'

/-- Below `2 ^ 31` the `as i32` cast is the identity. Every constructible maze
satisfies this bound (a larger size could not even allocate its tile vector),
and the theorems below assume it where the source casts to `i32`. -/
theorem usizeToI32_eq (n : Nat) (h : n < 2 ^ 31) : usizeToI32 n = (n : Int) := by
  rw [usizeToI32, Int.bmod]
  split
  · rw [Int.emod_eq_of_lt (by omega) (by omega)]
  · next hc =>
    rw [Int.emod_eq_of_lt (by omega) (by omega)] at hc
    omega

/-- `tile_type_at` reports `Open` exactly when the blocked-move test of
`internal_move_player` fails: both apply one and the same
out-of-bounds-or-Blocked test. -/
theorem tile_type_at_open_iff (m : Maze) (hs : m.size < 2 ^ 31) (a b : Int) :
    m.tile_type_at a b = TileType.Open ↔
      ¬(a < 0 ∨ b < 0 ∨ m.size ≤ a.toNat ∨ m.size ≤ b.toNat ∨
        (m.tile_at a.toNat b.toNat).tile_type = TileType.Blocked) := by
  rw [Maze.tile_type_at, usizeToI32_eq _ hs]
  by_cases hb : a < 0 ∨ b < 0 ∨ (m.size : Int) ≤ a ∨ (m.size : Int) ≤ b
  · rw [if_pos hb]
    constructor
    · intro h
      exact absurd h (by decide)
    · intro h
      exfalso
      apply h
      rcases hb with h1 | h2 | h3 | h4
      · exact Or.inl h1
      · exact Or.inr (Or.inl h2)
      · exact Or.inr (Or.inr (Or.inl (by omega)))
      · exact Or.inr (Or.inr (Or.inr (Or.inl (by omega))))
  · rw [if_neg hb]
    push_neg at hb
    obtain ⟨ha0, hb0, has, hbs⟩ := hb
    constructor
    · intro h hcon
      rcases hcon with h1 | h2 | h3 | h4 | h5
      · omega
      · omega
      · omega
      · omega
      · rw [h] at h5
        exact absurd h5 (by decide)
    · intro h
      cases htile : (m.tile_at a.toNat b.toNat).tile_type with
      | Open => rfl
      | Blocked =>
        exfalso
        exact h (Or.inr (Or.inr (Or.inr (Or.inr htile))))

/-- The `(x, y)` target produced by the `match direction` at the top of
`internal_move_player`, as a standalone function. -/
def Maze.moveTargetI32 (m : Maze) (direction : Direction) : Int × Int :=
  match direction with
  | Direction.Up => (usizeToI32 m.player.x, usizeToI32 m.player.y - 1)
  | Direction.Down => (usizeToI32 m.player.x, usizeToI32 m.player.y + 1)
  | Direction.Left => (usizeToI32 m.player.x - 1, usizeToI32 m.player.y)
  | Direction.Right => (usizeToI32 m.player.x + 1, usizeToI32 m.player.y)

/-- `internal_move_player` rephrased through `moveTargetI32` (definitional). -/
theorem internal_move_player_eq (m : Maze) (d : Direction) :
    m.internal_move_player d =
      (if (m.moveTargetI32 d).1 < 0 ∨ (m.moveTargetI32 d).2 < 0 ∨
          m.size ≤ (m.moveTargetI32 d).1.toNat ∨ m.size ≤ (m.moveTargetI32 d).2.toNat ∨
          (m.tile_at (m.moveTargetI32 d).1.toNat (m.moveTargetI32 d).2.toNat).tile_type =
            TileType.Blocked then
        (Except.error ⟨⟩, m)
      else
        (Except.ok (),
          ({ m with
            player := ⟨(m.moveTargetI32 d).1.toNat, (m.moveTargetI32 d).2.toNat⟩ } :
              Maze).reveal_around_player)) := by
  cases d <;> rfl

/-- The `Result` of `internal_move_player` is `Ok` exactly when the
out-of-bounds-or-Blocked test on the target coordinate fails. -/
theorem move_fst_ok_iff (m : Maze) (d : Direction) :
    (m.internal_move_player d).1 = Except.ok () ↔
      ¬((m.moveTargetI32 d).1 < 0 ∨ (m.moveTargetI32 d).2 < 0 ∨
        m.size ≤ (m.moveTargetI32 d).1.toNat ∨ m.size ≤ (m.moveTargetI32 d).2.toNat ∨
        (m.tile_at (m.moveTargetI32 d).1.toNat (m.moveTargetI32 d).2.toNat).tile_type =
          TileType.Blocked) := by
  rw [internal_move_player_eq]
  by_cases hA : ((m.moveTargetI32 d).1 < 0 ∨ (m.moveTargetI32 d).2 < 0 ∨
      m.size ≤ (m.moveTargetI32 d).1.toNat ∨ m.size ≤ (m.moveTargetI32 d).2.toNat ∨
      (m.tile_at (m.moveTargetI32 d).1.toNat (m.moveTargetI32 d).2.toNat).tile_type =
        TileType.Blocked)
  · rw [if_pos hA]
    exact iff_of_false (fun h => Except.noConfusion h) (not_not_intro hA)
  · rw [if_neg hA]
    exact iff_of_true rfl hA

/-- C10: `move_player(d)` succeeds if and only if `neighbouring_tile_types()`
reports direction `d` as `Open`: the two operations apply the same
out-of-bounds-or-Blocked test to the same one-step target, so a caller can
predict move success from the neighbour query alone. Stated for every maze
whose size is below `2 ^ 31` (the bound under which the source's `as i32`
casts are lossless; every constructible maze satisfies it). -/
theorem move_succeeds_iff_neighbour_open (m : Maze) (d : Direction)
    (hs : m.size < 2 ^ 31) :
    (m.internal_move_player d).1 = Except.ok () ↔
      (match d with
       | Direction.Left => m.neighbouring_tile_types.left
       | Direction.Right => m.neighbouring_tile_types.right
       | Direction.Up => m.neighbouring_tile_types.up
       | Direction.Down => m.neighbouring_tile_types.down) = TileType.Open := by
  have hfield : (match d with
       | Direction.Left => m.neighbouring_tile_types.left
       | Direction.Right => m.neighbouring_tile_types.right
       | Direction.Up => m.neighbouring_tile_types.up
       | Direction.Down => m.neighbouring_tile_types.down) =
      m.tile_type_at (m.moveTargetI32 d).1 (m.moveTargetI32 d).2 := by
    cases d <;> simp only [Maze.neighbouring_tile_types, Maze.moveTargetI32]
  rw [hfield, tile_type_at_open_iff m hs, move_fst_ok_iff]

/-- Witness for C10 at a concrete input: a 1-tile maze, moving right. -/
theorem move_succeeds_iff_neighbour_open_witness :
    ((Maze.mk ⟨0, 0⟩ ⟨0, 0⟩ 1 [Tile.open]).internal_move_player Direction.Right).1 =
        Except.ok () ↔
      (Maze.mk ⟨0, 0⟩ ⟨0, 0⟩ 1 [Tile.open]).neighbouring_tile_types.right =
        TileType.Open :=
  move_succeeds_iff_neighbour_open (Maze.mk ⟨0, 0⟩ ⟨0, 0⟩ 1 [Tile.open])
    Direction.Right (by norm_num)

/-- C8: on a working grid whose `link` fields form an acyclic forest (rendered
here as: single-position root-following terminates from every in-bounds
position), the coupled recursion `find` terminates on any two in-bounds
positions and returns exactly the pair of their independent union-find roots. -/
theorem find_resolves_roots_independently (size : Nat) (m : List MazeGenerationTile)
    (hforest : ∀ p, InBounds size p → ∃ n r, findRoot size m n p = some r)
    (p q : Position) (hp : InBounds size p) (hq : InBounds size q) :
    ∃ rp rq n0,
      (∃ np, findRoot size m np p = some rp) ∧
      (∃ nq, findRoot size m nq q = some rq) ∧
      ∀ n, n0 ≤ n → find size m n p q = some (rp, rq) := by
  obtain ⟨np, rp, hrp⟩ := hforest p hp
  obtain ⟨nq, rq, hrq⟩ := hforest q hq
  refine ⟨rp, rq, max np nq, ⟨np, hrp⟩, ⟨nq, hrq⟩, fun n hn => ?_⟩
  exact find_of_findRoot size m n p q rp rq
    (findRoot_le size m np n p rp (le_trans (le_max_left np nq) hn) hrp)
    (findRoot_le size m nq n q rq (le_trans (le_max_right np nq) hn) hrq)

/-- Witness for C8 at a concrete input: the freshly initialized 1-grid. -/
theorem find_resolves_roots_independently_witness :
    ∃ rp rq n0,
      (∃ np, findRoot 1 (genInit 1) np ⟨0, 0⟩ = some rp) ∧
      (∃ nq, findRoot 1 (genInit 1) nq ⟨0, 0⟩ = some rq) ∧
      ∀ n, n0 ≤ n → find 1 (genInit 1) n ⟨0, 0⟩ ⟨0, 0⟩ = some (rp, rq) :=
  find_resolves_roots_independently 1 (genInit 1)
    (fun p hp => by
      obtain ⟨x, y⟩ := p
      have hx : x < 1 := hp.1
      have hy : y < 1 := hp.2
      have hx0 : x = 0 := by omega
      have hy0 : y = 0 := by omega
      subst hx0
      subst hy0
      exact ⟨1, ⟨0, 0⟩, by decide⟩)
    ⟨0, 0⟩ ⟨0, 0⟩ (by decide) (by decide)

/-- C9: creating a maze with an even size aborts (modelled as `none`) before
any `Maze` is produced, while every odd size passes the assertion and
generation completes with a maze. -/
theorem new_even_aborts_odd_completes (size : Nat) (shuffled : List Position) :
    (size % 2 = 0 → Maze.new size shuffled = none) ∧
    (size % 2 = 1 → ∃ mz, Maze.new size shuffled = some mz) := by
  constructor
  · intro h
    simp only [Maze.new, generate_random_map, if_neg (show ¬size % 2 = 1 by omega)]
  · intro h
    simp only [Maze.new, generate_random_map, if_pos h]
    exact ⟨_, rfl⟩

/-- Witness for C9 at concrete inputs: size 2 aborts, size 1 completes. -/
theorem new_even_aborts_odd_completes_witness :
    Maze.new 2 [] = none ∧ ∃ mz, Maze.new 1 [] = some mz :=
  ⟨(new_even_aborts_odd_completes 2 []).1 rfl,
   (new_even_aborts_odd_completes 1 []).2 rfl⟩

/-- `tile_type_at` with the cast made explicit, reading straight from the map
list (size below `2 ^ 31`). -/
theorem tile_type_at_cast (m : Maze) (hs : m.size < 2 ^ 31) (a b : Int) :
    m.tile_type_at a b =
      if a < 0 ∨ b < 0 ∨ (m.size : Int) ≤ a ∨ (m.size : Int) ≤ b then TileType.Blocked
      else (m.map.getD (m.size * b.toNat + a.toNat) default).tile_type := by
  rw [Maze.tile_type_at, usizeToI32_eq _ hs]
  rfl

/-- C6: `neighbouring_tile_types` reports, for each direction, the true
underlying `TileType` of the grid-adjacent position regardless of visibility,
except that out-of-bounds neighbours (negative coordinate or at least `size`)
are reported as `Blocked`; the operation is a total, non-mutating read. Stated
for an in-bounds player and size below `2 ^ 31` (the lossless range of the
source's `as i32` casts). -/
theorem neighbouring_tile_types_spec (m : Maze)
    (hx : m.player.x < m.size) (hy : m.player.y < m.size) (hs : m.size < 2 ^ 31) :
    m.neighbouring_tile_types =
      { left := if m.player.x = 0 then TileType.Blocked
          else (m.map.getD (m.size * m.player.y + (m.player.x - 1)) default).tile_type
        right := if m.size ≤ m.player.x + 1 then TileType.Blocked
          else (m.map.getD (m.size * m.player.y + (m.player.x + 1)) default).tile_type
        up := if m.player.y = 0 then TileType.Blocked
          else (m.map.getD (m.size * (m.player.y - 1) + m.player.x) default).tile_type
        down := if m.size ≤ m.player.y + 1 then TileType.Blocked
          else (m.map.getD (m.size * (m.player.y + 1) + m.player.x) default).tile_type } := by
  have hmk : m.neighbouring_tile_types =
      NeighbouringTileTypes.mk
        (m.tile_type_at (usizeToI32 m.player.x - 1) (usizeToI32 m.player.y))
        (m.tile_type_at (usizeToI32 m.player.x + 1) (usizeToI32 m.player.y))
        (m.tile_type_at (usizeToI32 m.player.x) (usizeToI32 m.player.y - 1))
        (m.tile_type_at (usizeToI32 m.player.x) (usizeToI32 m.player.y + 1)) := by
    simp only [Maze.neighbouring_tile_types]
  rw [hmk]
  rw [usizeToI32_eq m.player.x (by omega)]
  rw [usizeToI32_eq m.player.y (by omega)]
  rw [NeighbouringTileTypes.mk.injEq]
  refine ⟨?_, ?_, ?_, ?_⟩
  · rw [tile_type_at_cast m hs]
    by_cases h0 : m.player.x = 0
    · rw [if_pos (Or.inl (by omega)), if_pos h0]
    · rw [if_neg (by push_neg; exact ⟨by omega, by omega, by omega, by omega⟩),
        if_neg h0]
      have ha : ((m.player.x : Int) - 1).toNat = m.player.x - 1 := by omega
      have hb : ((m.player.y : Int)).toNat = m.player.y := by omega
      rw [ha, hb]
  · rw [tile_type_at_cast m hs]
    by_cases h0 : m.size ≤ m.player.x + 1
    · rw [if_pos (Or.inr (Or.inr (Or.inl (by omega)))), if_pos h0]
    · rw [if_neg (by push_neg; exact ⟨by omega, by omega, by omega, by omega⟩),
        if_neg h0]
      have ha : ((m.player.x : Int) + 1).toNat = m.player.x + 1 := by omega
      have hb : ((m.player.y : Int)).toNat = m.player.y := by omega
      rw [ha, hb]
  · rw [tile_type_at_cast m hs]
    by_cases h0 : m.player.y = 0
    · rw [if_pos (Or.inr (Or.inl (by omega))), if_pos h0]
    · rw [if_neg (by push_neg; exact ⟨by omega, by omega, by omega, by omega⟩),
        if_neg h0]
      have ha : ((m.player.x : Int)).toNat = m.player.x := by omega
      have hb : ((m.player.y : Int) - 1).toNat = m.player.y - 1 := by omega
      rw [ha, hb]
  · rw [tile_type_at_cast m hs]
    by_cases h0 : m.size ≤ m.player.y + 1
    · rw [if_pos (Or.inr (Or.inr (Or.inr (by omega)))), if_pos h0]
    · rw [if_neg (by push_neg; exact ⟨by omega, by omega, by omega, by omega⟩),
        if_neg h0]
      have ha : ((m.player.x : Int)).toNat = m.player.x := by omega
      have hb : ((m.player.y : Int) + 1).toNat = m.player.y + 1 := by omega
      rw [ha, hb]

/-- Witness for C6 at a concrete input: the 1-tile maze, all neighbours out of
bounds. -/
theorem neighbouring_tile_types_spec_witness :
    (Maze.mk ⟨0, 0⟩ ⟨0, 0⟩ 1 [Tile.open]).neighbouring_tile_types =
      { left := TileType.Blocked, right := TileType.Blocked,
        up := TileType.Blocked, down := TileType.Blocked } := by
  rw [neighbouring_tile_types_spec (Maze.mk ⟨0, 0⟩ ⟨0, 0⟩ 1 [Tile.open])
    (by decide) (by decide) (by norm_num)]
  decide

/-- `serializeLabel` spelled out on visibility. -/
theorem serializeLabel_eq (t : Tile) :
    t.serializeLabel =
      if t.visibility = TileVisibility.Revealed then
        match t.tile_type with
        | TileType.Open => "open"
        | TileType.Blocked => "blocked"
      else "hidden" := by
  rw [Tile.serializeLabel, Tile.is_revealed]
  by_cases h : t.visibility = TileVisibility.Revealed
  · rw [if_pos h]
    simp [h]
  · rw [if_neg h]
    simp [h]

/-- Row arithmetic: a full row fits before the end of the map. -/
theorem row_fits (size y : Nat) (hy : y < size) : y * size + size ≤ size * size := by
  have h := Nat.mul_le_mul_right size (show y + 1 ≤ size by omega)
  calc y * size + size = (y + 1) * size := by ring
  _ ≤ size * size := h

/-- One entry of the serialized grid, for in-bounds coordinates. -/
theorem serializeGrid_entry (m : Maze) (hlen : m.map.length = m.size * m.size)
    (x y : Nat) (hx : x < m.size) (hy : y < m.size) :
    (m.serializeGrid.getD y []).getD x "" =
      if m.player = ⟨x, y⟩ then "player"
      else if m.exit = ⟨x, y⟩ then "exit"
      else if (m.map.getD (m.size * y + x) default).visibility = TileVisibility.Revealed then
        match (m.map.getD (m.size * y + x) default).tile_type with
        | TileType.Open => "open"
        | TileType.Blocked => "blocked"
      else "hidden" := by
  have hrow := row_fits m.size y hy
  have hyr : (List.range m.size).getD y 0 = y := by
    simp [List.getD_eq_getElem?_getD, List.getElem?_range hy]
  have hslice : ((m.map.drop (y * m.size)).take m.size).length = m.size := by
    rw [List.length_take, List.length_drop, hlen]
    omega
  have hcell : ((m.map.drop (y * m.size)).take m.size).getD x default =
      m.map.getD (m.size * y + x) default := by
    simp only [List.getD_eq_getElem?_getD]
    rw [List.getElem?_take_of_lt hx, List.getElem?_drop]
    have harith : y * m.size + x = m.size * y + x := by ring
    rw [harith]
  rw [Maze.serializeGrid]
  rw [getD_map (List.range m.size) _ y [] 0 (by simpa using hy), hyr]
  rw [serializeRow]
  rw [getD_map (List.range ((m.map.drop (y * m.size)).take m.size).length) _ x "" 0
    (by simpa [hslice] using hx)]
  have hxr : (List.range ((m.map.drop (y * m.size)).take m.size).length).getD x 0 = x := by
    simp [List.getD_eq_getElem?_getD, List.getElem?_range, hslice, hx]
  rw [hxr, hcell, serializeLabel_eq]
  have hpl : (m.player.x = x ∧ m.player.y = y) ↔ m.player = ⟨x, y⟩ := by
    obtain ⟨a, b⟩ := m.player
    rw [Position.mk.injEq]
  have hex : (m.exit.x = x ∧ m.exit.y = y) ↔ m.exit = ⟨x, y⟩ := by
    obtain ⟨a, b⟩ := m.exit
    rw [Position.mk.injEq]
  rw [if_congr hpl rfl (if_congr hex rfl rfl)]

/-- C4: serialization produces `size` rows of `size` labels; the label at grid
position `(x, y)` is "player" if it equals the player position, else "exit" if
it equals the exit position, else the true type ("open"/"blocked") if the tile
is revealed, else "hidden" — in that priority order. Stated for every maze
satisfying the `size * size` map-length invariant. -/
theorem serialization_spec (m : Maze) (hlen : m.map.length = m.size * m.size) :
    m.serializeGrid.length = m.size ∧
    (∀ y, y < m.size → (m.serializeGrid.getD y []).length = m.size) ∧
    (∀ x y, x < m.size → y < m.size →
      (m.serializeGrid.getD y []).getD x "" =
        if m.player = ⟨x, y⟩ then "player"
        else if m.exit = ⟨x, y⟩ then "exit"
        else if (m.map.getD (m.size * y + x) default).visibility = TileVisibility.Revealed then
          match (m.map.getD (m.size * y + x) default).tile_type with
          | TileType.Open => "open"
          | TileType.Blocked => "blocked"
        else "hidden") := by
  refine ⟨by simp [Maze.serializeGrid], ?_, ?_⟩
  · intro y hy
    have hrow := row_fits m.size y hy
    have hyr : (List.range m.size).getD y 0 = y := by
      simp [List.getD_eq_getElem?_getD, List.getElem?_range hy]
    rw [Maze.serializeGrid, getD_map (List.range m.size) _ y [] 0 (by simpa using hy), hyr,
      serializeRow, List.length_map, List.length_range, List.length_take, List.length_drop,
      hlen]
    omega
  · intro x y hx hy
    exact serializeGrid_entry m hlen x y hx hy

/-- Witness for C4 at a concrete input: a 1-tile maze. -/
theorem serialization_spec_witness :
    (Maze.mk ⟨0, 0⟩ ⟨0, 0⟩ 1 [Tile.open]).serializeGrid.length = 1 ∧
    (∀ y, y < 1 →
      ((Maze.mk ⟨0, 0⟩ ⟨0, 0⟩ 1 [Tile.open]).serializeGrid.getD y []).length = 1) ∧
    (∀ x y, x < 1 → y < 1 →
      (((Maze.mk ⟨0, 0⟩ ⟨0, 0⟩ 1 [Tile.open]).serializeGrid.getD y []).getD x "") =
        if (Maze.mk ⟨0, 0⟩ ⟨0, 0⟩ 1 [Tile.open]).player = ⟨x, y⟩ then "player"
        else if (Maze.mk ⟨0, 0⟩ ⟨0, 0⟩ 1 [Tile.open]).exit = ⟨x, y⟩ then "exit"
        else if ((Maze.mk ⟨0, 0⟩ ⟨0, 0⟩ 1 [Tile.open]).map.getD (1 * y + x)
            default).visibility = TileVisibility.Revealed then
          match ((Maze.mk ⟨0, 0⟩ ⟨0, 0⟩ 1 [Tile.open]).map.getD (1 * y + x)
              default).tile_type with
          | TileType.Open => "open"
          | TileType.Blocked => "blocked"
        else "hidden") :=
  serialization_spec (Maze.mk ⟨0, 0⟩ ⟨0, 0⟩ 1 [Tile.open]) (by decide)

/-- The 3×3 state exactly as claim C5 words it: every tile Blocked+Revealed
except `(0,0)` Open+Revealed, `(1,0)` Blocked+Hidden, and `(0,1)`
Open+Revealed; player `(0,0)`, exit `(2,2)`. Row-major. -/
def c5ClaimMaze : Maze :=
  { player := ⟨0, 0⟩
    exit := ⟨2, 2⟩
    size := 3
    map := [⟨TileType.Open, TileVisibility.Revealed⟩,
            ⟨TileType.Blocked, TileVisibility.Hidden⟩,
            ⟨TileType.Blocked, TileVisibility.Revealed⟩,
            ⟨TileType.Open, TileVisibility.Revealed⟩,
            ⟨TileType.Blocked, TileVisibility.Revealed⟩,
            ⟨TileType.Blocked, TileVisibility.Revealed⟩,
            ⟨TileType.Blocked, TileVisibility.Revealed⟩,
            ⟨TileType.Blocked, TileVisibility.Revealed⟩,
            ⟨TileType.Blocked, TileVisibility.Revealed⟩] }

/-- The same state with `(0,1)` Open but *unrevealed* (`Tile::open()` is
Hidden), which is what the source's test actually constructs. -/
def c5TestMaze : Maze :=
  { player := ⟨0, 0⟩
    exit := ⟨2, 2⟩
    size := 3
    map := [⟨TileType.Open, TileVisibility.Revealed⟩,
            ⟨TileType.Blocked, TileVisibility.Hidden⟩,
            ⟨TileType.Blocked, TileVisibility.Revealed⟩,
            ⟨TileType.Open, TileVisibility.Hidden⟩,
            ⟨TileType.Blocked, TileVisibility.Revealed⟩,
            ⟨TileType.Blocked, TileVisibility.Revealed⟩,
            ⟨TileType.Blocked, TileVisibility.Revealed⟩,
            ⟨TileType.Blocked, TileVisibility.Revealed⟩,
            ⟨TileType.Blocked, TileVisibility.Revealed⟩] }

/-- Counterexample to C5 as stated: with `(0,1)` Open and Revealed the second
row serializes as `["open", "blocked", "blocked"]`, not
`["hidden", "blocked", "blocked"]`. -/
theorem serialization_masking_counterexample :
    c5ClaimMaze.serializeGrid =
      [["player", "hidden", "blocked"],
       ["open", "blocked", "blocked"],
       ["blocked", "blocked", "exit"]] ∧
    ¬(c5ClaimMaze.serializeGrid =
      [["player", "hidden", "blocked"],
       ["hidden", "blocked", "blocked"],
       ["blocked", "blocked", "exit"]]) := by
  constructor
  · decide
  · decide

/-- C5 amended: with `(0,1)` Open and unrevealed (as in the source's test),
serialization yields exactly the claimed grid. -/
theorem serialization_masking_amended :
    c5TestMaze.serializeGrid =
      [["player", "hidden", "blocked"],
       ["hidden", "blocked", "blocked"],
       ["blocked", "blocked", "exit"]] := by
  decide

/-- `Maze.reveal` preserves the player (the source mutates only the map). -/
theorem reveal_player_eq (m : Maze) (x y : Nat) : (m.reveal x y).player = m.player := rfl

/-- `Maze.reveal` preserves the exit. -/
theorem reveal_exit_eq (m : Maze) (x y : Nat) : (m.reveal x y).exit = m.exit := rfl

/-- `Maze.reveal` preserves the size. -/
theorem reveal_size_eq (m : Maze) (x y : Nat) : (m.reveal x y).size = m.size := rfl

/-- `Maze.reveal` preserves the map length. -/
theorem reveal_length_eq (m : Maze) (x y : Nat) :
    (m.reveal x y).map.length = m.map.length := by
  rw [Maze.reveal]
  exact List.length_set m.map _ _

/-- `Maze.reveal` never changes a tile type. -/
theorem reveal_type_eq (m : Maze) (x y i : Nat) :
    ((m.reveal x y).map.getD i default).tile_type = (m.map.getD i default).tile_type := by
  rw [Maze.reveal]
  show ((m.map.set (m.to_index x y)
    (m.map.getD (m.to_index x y) default).reveal).getD i default).tile_type = _
  rw [getD_set]
  split
  · next h => rw [h.1, Tile.reveal]
  · rfl

/-- `Maze.reveal` keeps every already-revealed tile revealed. -/
theorem reveal_keeps_revealed (m : Maze) (x y i : Nat)
    (h : (m.map.getD i default).visibility = TileVisibility.Revealed) :
    ((m.reveal x y).map.getD i default).visibility = TileVisibility.Revealed := by
  rw [Maze.reveal]
  show ((m.map.set (m.to_index x y)
    (m.map.getD (m.to_index x y) default).reveal).getD i default).visibility = _
  rw [getD_set]
  split
  · rfl
  · exact h

/-- `reveal_around_player` keeps every already-revealed tile revealed. -/
theorem reveal_around_keeps_revealed (m : Maze) (i : Nat)
    (h : (m.map.getD i default).visibility = TileVisibility.Revealed) :
    ((m.reveal_around_player).map.getD i default).visibility = TileVisibility.Revealed := by
  have step : ∀ (mm : Maze) (x y : Nat),
      (mm.map.getD i default).visibility = TileVisibility.Revealed →
      (((mm.reveal x y)).map.getD i default).visibility = TileVisibility.Revealed :=
    fun mm x y hp => reveal_keeps_revealed mm x y i hp
  have hcond : ∀ (mm : Maze) (c : Prop) (inst : Decidable c) (x y : Nat),
      (mm.map.getD i default).visibility = TileVisibility.Revealed →
      (((if c then mm.reveal x y else mm)).map.getD i default).visibility =
        TileVisibility.Revealed := by
    intro mm c inst x y hp
    split
    · exact step mm x y hp
    · exact hp
  rw [Maze.reveal_around_player]
  exact hcond _ _ _ _ _ (hcond _ _ _ _ _ (hcond _ _ _ _ _ (hcond _ _ _ _ _
    (step _ _ _ h))))

/-- A single `move_player` call keeps every already-revealed tile revealed. -/
theorem move_keeps_revealed (m : Maze) (d : Direction) (i : Nat)
    (h : (m.map.getD i default).visibility = TileVisibility.Revealed) :
    (((m.movePlayerState d)).map.getD i default).visibility = TileVisibility.Revealed := by
  rw [Maze.movePlayerState, internal_move_player_eq]
  split
  · exact h
  · exact reveal_around_keeps_revealed _ i h

/-- C7: visibility is monotonic. Revealing an already-revealed tile is the
identity on the tile, and across any sequence of `move_player` calls a
revealed tile stays revealed (the queries `neighbouring_tile_types`, `player`
and serialization are pure reads in this embedding and touch no state). -/
theorem visibility_monotonic :
    (∀ t : Tile, t.visibility = TileVisibility.Revealed → t.reveal = t) ∧
    (∀ (m : Maze) (ds : List Direction) (i : Nat),
      (m.map.getD i default).visibility = TileVisibility.Revealed →
      (((ds.foldl Maze.movePlayerState m)).map.getD i default).visibility =
        TileVisibility.Revealed) := by
  constructor
  · intro t ht
    obtain ⟨tt, v⟩ := t
    rw [Tile.reveal]
    have hv : v = TileVisibility.Revealed := ht
    rw [hv]
  · intro m ds
    induction ds generalizing m with
    | nil => intro i h; exact h
    | cons d rest ih =>
      intro i h
      exact ih (m.movePlayerState d) i (move_keeps_revealed m d i h)

/-- Witness for C7 at concrete inputs: a revealed tile is a fixed point of
`reveal`, and stays revealed across a move on a 1-tile maze. -/
theorem visibility_monotonic_witness :
    (Tile.mk TileType.Open TileVisibility.Revealed).reveal =
      Tile.mk TileType.Open TileVisibility.Revealed ∧
    ((([Direction.Up].foldl Maze.movePlayerState
        (Maze.mk ⟨0, 0⟩ ⟨0, 0⟩ 1 [Tile.mk TileType.Open TileVisibility.Revealed]))).map.getD
      0 default).visibility = TileVisibility.Revealed :=
  ⟨visibility_monotonic.1 (Tile.mk TileType.Open TileVisibility.Revealed) rfl,
   visibility_monotonic.2 (Maze.mk ⟨0, 0⟩ ⟨0, 0⟩ 1
     [Tile.mk TileType.Open TileVisibility.Revealed]) [Direction.Up] 0 rfl⟩

/-- The one-step target coordinate of a move, in exact integers (the
specification-side reading of the `match direction` offsets). -/
def moveTarget (m : Maze) (d : Direction) : Int × Int :=
  match d with
  | Direction.Up => ((m.player.x : Int), (m.player.y : Int) - 1)
  | Direction.Down => ((m.player.x : Int), (m.player.y : Int) + 1)
  | Direction.Left => ((m.player.x : Int) - 1, (m.player.y : Int))
  | Direction.Right => ((m.player.x : Int) + 1, (m.player.y : Int))

/-- The blocked-move condition as the specification words it: the target is
out of bounds (negative or at least `size` in either axis) or the target tile
is Blocked. -/
def MoveBlocked (m : Maze) (d : Direction) : Prop :=
  (moveTarget m d).1 < 0 ∨ (moveTarget m d).2 < 0 ∨
  (m.size : Int) ≤ (moveTarget m d).1 ∨ (m.size : Int) ≤ (moveTarget m d).2 ∨
  (m.map.getD (m.size * (moveTarget m d).2.toNat + (moveTarget m d).1.toNat)
    default).tile_type = TileType.Blocked

/-- Below `2 ^ 31`, the i32 move target agrees with the exact one. -/
theorem moveTargetI32_eq (m : Maze) (d : Direction)
    (hx : m.player.x < 2 ^ 31) (hy : m.player.y < 2 ^ 31) :
    m.moveTargetI32 d = moveTarget m d := by
  cases d <;> simp only [Maze.moveTargetI32, moveTarget,
    usizeToI32_eq m.player.x hx, usizeToI32_eq m.player.y hy]

/-- Visibility after a single `reveal`, pointwise on in-bounds coordinates. -/
theorem vis_reveal (m : Maze) (hlen : m.map.length = m.size * m.size)
    (u v a b : Nat) (hu : u < m.size) (hv : v < m.size)
    (ha : a < m.size) (hb : b < m.size) :
    ((m.reveal u v).map.getD (m.size * b + a) default).visibility =
      if a = u ∧ b = v then TileVisibility.Revealed
      else (m.map.getD (m.size * b + a) default).visibility := by
  rw [Maze.reveal]
  show ((m.map.set (m.to_index u v) (m.map.getD (m.to_index u v) default).reveal).getD
    (m.size * b + a) default).visibility = _
  rw [getD_set]
  by_cases heq : a = u ∧ b = v
  · obtain ⟨rfl, rfl⟩ := heq
    rw [if_pos ⟨rfl, by rw [hlen]; exact idxOf_lt m.size ⟨a, b⟩ ⟨ha, hb⟩⟩, if_pos ⟨rfl, rfl⟩]
    rfl
  · rw [if_neg, if_neg heq]
    intro hc
    have := idxOf_inj m.size (p := ⟨a, b⟩) (q := ⟨u, v⟩) ha hu hc.1
    rw [Position.mk.injEq] at this
    exact heq this

/-- The up-to-five positions revealed by `reveal_around_player`, as a list. -/
def aroundList (p : Position) (size : Nat) : List Position :=
  [p] ++ (if p.x > 0 then [⟨p.x - 1, p.y⟩] else []) ++
    (if p.y > 0 then [⟨p.x, p.y - 1⟩] else []) ++
    (if p.x < size - 1 then [⟨p.x + 1, p.y⟩] else []) ++
    (if p.y < size - 1 then [⟨p.x, p.y + 1⟩] else [])

/-- `reveal_around_player` is the fold of `reveal` over `aroundList`. -/
theorem reveal_around_eq_foldl (m : Maze) :
    m.reveal_around_player =
      (aroundList m.player m.size).foldl (fun acc q => acc.reveal q.x q.y) m := by
  rw [Maze.reveal_around_player, aroundList]
  by_cases h1 : m.player.x > 0 <;> by_cases h2 : m.player.y > 0 <;>
    by_cases h3 : m.player.x < m.size - 1 <;> by_cases h4 : m.player.y < m.size - 1 <;>
    simp [h1, h2, h3, h4, reveal_player_eq, reveal_size_eq]

/-- Folding `reveal` preserves the player. -/
theorem foldl_reveal_player (ps : List Position) :
    ∀ m : Maze, ((ps.foldl (fun acc q => acc.reveal q.x q.y) m)).player = m.player := by
  induction ps with
  | nil => intro m; rfl
  | cons q rest ih => intro m; rw [List.foldl_cons, ih, reveal_player_eq]

/-- Folding `reveal` preserves the exit. -/
theorem foldl_reveal_exit (ps : List Position) :
    ∀ m : Maze, ((ps.foldl (fun acc q => acc.reveal q.x q.y) m)).exit = m.exit := by
  induction ps with
  | nil => intro m; rfl
  | cons q rest ih => intro m; rw [List.foldl_cons, ih, reveal_exit_eq]

/-- Folding `reveal` preserves the size. -/
theorem foldl_reveal_size (ps : List Position) :
    ∀ m : Maze, ((ps.foldl (fun acc q => acc.reveal q.x q.y) m)).size = m.size := by
  induction ps with
  | nil => intro m; rfl
  | cons q rest ih => intro m; rw [List.foldl_cons, ih, reveal_size_eq]

/-- Folding `reveal` preserves the map length. -/
theorem foldl_reveal_length (ps : List Position) :
    ∀ m : Maze,
      ((ps.foldl (fun acc q => acc.reveal q.x q.y) m)).map.length = m.map.length := by
  induction ps with
  | nil => intro m; rfl
  | cons q rest ih => intro m; rw [List.foldl_cons, ih, reveal_length_eq]

/-- Folding `reveal` preserves every tile type. -/
theorem foldl_reveal_type (ps : List Position) :
    ∀ (m : Maze) (i : Nat),
      (((ps.foldl (fun acc q => acc.reveal q.x q.y) m)).map.getD i default).tile_type =
        (m.map.getD i default).tile_type := by
  induction ps with
  | nil => intro m i; rfl
  | cons q rest ih => intro m i; rw [List.foldl_cons, ih, reveal_type_eq]

/-- Visibility after folding `reveal` over a list of in-bounds positions:
revealed exactly on the list, unchanged elsewhere. -/
theorem vis_foldl_reveal (ps : List Position) :
    ∀ (m : Maze) (a b : Nat), m.map.length = m.size * m.size → a < m.size → b < m.size →
      (∀ q ∈ ps, q.x < m.size ∧ q.y < m.size) →
      (((ps.foldl (fun acc q => acc.reveal q.x q.y) m)).map.getD (m.size * b + a)
        default).visibility =
        if (⟨a, b⟩ : Position) ∈ ps then TileVisibility.Revealed
        else (m.map.getD (m.size * b + a) default).visibility := by
  induction ps with
  | nil =>
    intro m a b _ _ _ _
    simp
  | cons q rest ih =>
    intro m a b hlen ha hb hq
    have hqx : q.x < m.size := (hq q (List.mem_cons_self q rest)).1
    have hqy : q.y < m.size := (hq q (List.mem_cons_self q rest)).2
    rw [List.foldl_cons]
    have hlen' : (m.reveal q.x q.y).map.length =
        (m.reveal q.x q.y).size * (m.reveal q.x q.y).size := by
      rw [reveal_length_eq, reveal_size_eq]
      exact hlen
    have hrest := ih (m.reveal q.x q.y) a b hlen'
      (by rw [reveal_size_eq]; exact ha) (by rw [reveal_size_eq]; exact hb)
      (fun r hr => by
        rw [reveal_size_eq]
        exact hq r (List.mem_cons_of_mem q hr))
    rw [reveal_size_eq] at hrest
    rw [hrest]
    by_cases hmem : (⟨a, b⟩ : Position) ∈ rest
    · rw [if_pos hmem, if_pos (List.mem_cons_of_mem q hmem)]
    · rw [if_neg hmem, vis_reveal m hlen q.x q.y a b hqx hqy ha hb]
      by_cases heq : a = q.x ∧ b = q.y
      · rw [if_pos heq]
        have habq : (⟨a, b⟩ : Position) = q := by
          obtain ⟨qx, qy⟩ := q
          rw [Position.mk.injEq]
          exact heq
      
        rw [if_pos (habq ▸ List.mem_cons_self q rest)]
      · rw [if_neg heq, if_neg]
        intro hc
        rcases List.mem_cons.mp hc with hc1 | hc2
        · apply heq
          obtain ⟨qx, qy⟩ := q
          rw [Position.mk.injEq] at hc1
          exact hc1
        · exact hmem hc2

/-- Membership in `aroundList` for in-bounds coordinates, spelled out. -/
theorem mem_aroundList (p : Position) (size : Nat) (hpx : p.x < size) (hpy : p.y < size)
    (a b : Nat) (ha : a < size) (hb : b < size) :
    ((⟨a, b⟩ : Position) ∈ aroundList p size) ↔
      ((a = p.x ∧ b = p.y) ∨
       (a = p.x ∧ (b + 1 = p.y ∨ b = p.y + 1)) ∨
       ((a + 1 = p.x ∨ a = p.x + 1) ∧ b = p.y)) := by
  obtain ⟨px, py⟩ := p
  rw [aroundList]
  by_cases h1 : px > 0 <;> by_cases h2 : py > 0 <;> by_cases h3 : px < size - 1 <;>
    by_cases h4 : py < size - 1 <;>
    simp only [h1, h2, h3, h4, if_true, if_false, List.mem_append,
      List.mem_singleton, List.not_mem_nil, or_false, false_or,
      Position.mk.injEq] <;>
    omega

/-- Positions in `aroundList` are in bounds when the centre is. -/
theorem aroundList_bounds (p : Position) (size : Nat) (hpx : p.x < size)
    (hpy : p.y < size) :
    ∀ q ∈ aroundList p size, q.x < size ∧ q.y < size := by
  obtain ⟨px, py⟩ := p
  have hpx2 : px < size := hpx
  have hpy2 : py < size := hpy
  intro q hq
  obtain ⟨qx, qy⟩ := q
  show qx < size ∧ qy < size
  rw [aroundList] at hq
  by_cases h1 : px > 0 <;> by_cases h2 : py > 0 <;> by_cases h3 : px < size - 1 <;>
    by_cases h4 : py < size - 1 <;>
    simp only [h1, h2, h3, h4, if_true, if_false, List.mem_append, List.mem_singleton,
      List.not_mem_nil, or_false, false_or, Position.mk.injEq] at hq <;>
    exact ⟨by omega, by omega⟩

/-- Visibility after `reveal_around_player`, pointwise: the player's tile and
its existing grid neighbours become Revealed, everything else is untouched. -/
theorem vis_reveal_around (mm : Maze) (hlen : mm.map.length = mm.size * mm.size)
    (hpx : mm.player.x < mm.size) (hpy : mm.player.y < mm.size)
    (a b : Nat) (ha : a < mm.size) (hb : b < mm.size) :
    ((mm.reveal_around_player).map.getD (mm.size * b + a) default).visibility =
      if (a = mm.player.x ∧ b = mm.player.y) ∨
         (a = mm.player.x ∧ (b + 1 = mm.player.y ∨ b = mm.player.y + 1)) ∨
         ((a + 1 = mm.player.x ∨ a = mm.player.x + 1) ∧ b = mm.player.y)
      then TileVisibility.Revealed
      else (mm.map.getD (mm.size * b + a) default).visibility := by
  rw [reveal_around_eq_foldl]
  rw [vis_foldl_reveal (aroundList mm.player mm.size) mm a b hlen ha hb
    (aroundList_bounds mm.player mm.size hpx hpy)]
  exact if_congr (mem_aroundList mm.player mm.size hpx hpy a b ha hb) rfl rfl

/-- C2: for an in-bounds player, `move_player` returns `DirectionBlocked` and
leaves the whole maze unchanged exactly when the one-step target coordinate is
out of bounds (negative or at least `size` in either axis) or the target tile
is Blocked; otherwise it succeeds, sets the player to the target and reveals
exactly the tiles around the new position, changing nothing else. Stated with
the map-length invariant and the `2 ^ 31` size bound under which the `as i32`
casts are lossless. -/
theorem move_player_spec (m : Maze) (d : Direction)
    (hx : m.player.x < m.size) (hy : m.player.y < m.size)
    (hlen : m.map.length = m.size * m.size) (hs : m.size < 2 ^ 31) :
    (MoveBlocked m d → m.internal_move_player d = (Except.error ⟨⟩, m)) ∧
    (¬MoveBlocked m d →
      ∃ m2, m.internal_move_player d = (Except.ok (), m2) ∧
        m2.player = ⟨(moveTarget m d).1.toNat, (moveTarget m d).2.toNat⟩ ∧
        m2.exit = m.exit ∧
        m2.size = m.size ∧
        m2.map.length = m.map.length ∧
        (∀ i, (m2.map.getD i default).tile_type = (m.map.getD i default).tile_type) ∧
        (∀ a b, a < m.size → b < m.size →
          (m2.map.getD (m.size * b + a) default).visibility =
            if (a = (moveTarget m d).1.toNat ∧ b = (moveTarget m d).2.toNat) ∨
               (a = (moveTarget m d).1.toNat ∧
                 (b + 1 = (moveTarget m d).2.toNat ∨ b = (moveTarget m d).2.toNat + 1)) ∨
               ((a + 1 = (moveTarget m d).1.toNat ∨ a = (moveTarget m d).1.toNat + 1) ∧
                 b = (moveTarget m d).2.toNat)
            then TileVisibility.Revealed
            else (m.map.getD (m.size * b + a) default).visibility)) := by
  have htgt := moveTargetI32_eq m d (by omega) (by omega)
  have hcond : ((m.moveTargetI32 d).1 < 0 ∨ (m.moveTargetI32 d).2 < 0 ∨
      m.size ≤ (m.moveTargetI32 d).1.toNat ∨ m.size ≤ (m.moveTargetI32 d).2.toNat ∨
      (m.tile_at (m.moveTargetI32 d).1.toNat (m.moveTargetI32 d).2.toNat).tile_type =
        TileType.Blocked) ↔ MoveBlocked m d := by
    rw [htgt, MoveBlocked, Maze.tile_at, Maze.to_index]
    constructor
    · intro h
      rcases h with h | h | h | h | h
      · exact Or.inl h
      · exact Or.inr (Or.inl h)
      · by_cases h1 : (moveTarget m d).1 < 0
        · exact Or.inl h1
        · exact Or.inr (Or.inr (Or.inl (by omega)))
      · by_cases h2 : (moveTarget m d).2 < 0
        · exact Or.inr (Or.inl h2)
        · exact Or.inr (Or.inr (Or.inr (Or.inl (by omega))))
      · exact Or.inr (Or.inr (Or.inr (Or.inr h)))
    · intro h
      rcases h with h | h | h | h | h
      · exact Or.inl h
      · exact Or.inr (Or.inl h)
      · exact Or.inr (Or.inr (Or.inl (by omega)))
      · exact Or.inr (Or.inr (Or.inr (Or.inl (by omega))))
      · exact Or.inr (Or.inr (Or.inr (Or.inr h)))
  constructor
  · intro hB
    rw [internal_move_player_eq, if_pos (hcond.mpr hB)]
  · intro hnB
    have hnB' := hnB
    rw [MoveBlocked] at hnB'
    push_neg at hnB'
    obtain ⟨h1, h2, h3, h4, h5⟩ := hnB'
    have htx : (moveTarget m d).1.toNat < m.size := by omega
    have hty : (moveTarget m d).2.toNat < m.size := by omega
    rw [internal_move_player_eq, if_neg (fun hc => hnB (hcond.mp hc)), htgt]
    refine ⟨_, rfl, ?_, ?_, ?_, ?_, ?_, ?_⟩
    · rw [reveal_around_eq_foldl, foldl_reveal_player]
    · rw [reveal_around_eq_foldl, foldl_reveal_exit]
    · rw [reveal_around_eq_foldl, foldl_reveal_size]
    · rw [reveal_around_eq_foldl, foldl_reveal_length]
    · intro i
      rw [reveal_around_eq_foldl, foldl_reveal_type]
    · intro a b ha hb
      have hva := vis_reveal_around
        ({ m with player := ⟨(moveTarget m d).1.toNat, (moveTarget m d).2.toNat⟩ } : Maze)
        hlen htx hty a b ha hb
      exact hva

/-- Witness for C2 at a concrete input: a 3×3 all-open maze, moving right from
`(1,1)` succeeds and lands on `(2,1)`; moving up from the top row of a 1×1
maze is blocked and changes nothing. -/
theorem move_player_spec_witness :
    (∃ m2, ((Maze.mk ⟨1, 1⟩ ⟨2, 2⟩ 3 (List.replicate 9 Tile.open)).internal_move_player
        Direction.Right) = (Except.ok (), m2) ∧ m2.player = ⟨2, 1⟩) ∧
    ((Maze.mk ⟨0, 0⟩ ⟨0, 0⟩ 1 [Tile.open]).internal_move_player Direction.Up) =
      (Except.error ⟨⟩, Maze.mk ⟨0, 0⟩ ⟨0, 0⟩ 1 [Tile.open]) := by
  constructor
  · have h := move_player_spec (Maze.mk ⟨1, 1⟩ ⟨2, 2⟩ 3 (List.replicate 9 Tile.open))
      Direction.Right (by decide) (by decide) (by decide) (by norm_num)
    obtain ⟨m2, heq, hp, _⟩ := h.2 (by unfold MoveBlocked moveTarget; decide)
    refine ⟨m2, heq, ?_⟩
    rw [hp]
    decide
  · have h := move_player_spec (Maze.mk ⟨0, 0⟩ ⟨0, 0⟩ 1 [Tile.open])
      Direction.Up (by decide) (by decide) (by decide) (by norm_num)
    exact h.1 (by unfold MoveBlocked moveTarget; decide)

/-- Parity preset: undecided exactly at wall parity (one odd coordinate). -/
theorem presetTileType_none (j i : Nat) :
    presetTileType j i = none ↔ (j + i) % 2 = 1 := by
  rw [presetTileType]
  by_cases hj : j % 2 = 0 <;> by_cases hi : i % 2 = 0 <;> simp [hj, hi] <;> omega

/-- Parity preset: Open exactly at cell parity (both coordinates even). -/
theorem presetTileType_open (j i : Nat) :
    presetTileType j i = some TileType.Open ↔ j % 2 = 0 ∧ i % 2 = 0 := by
  rw [presetTileType]
  by_cases hj : j % 2 = 0 <;> by_cases hi : i % 2 = 0 <;> simp [hj, hi]

/-- Parity preset: Blocked exactly at pillar parity (both coordinates odd). -/
theorem presetTileType_blocked (j i : Nat) :
    presetTileType j i = some TileType.Blocked ↔ j % 2 = 1 ∧ i % 2 = 1 := by
  rw [presetTileType]
  by_cases hj : j % 2 = 0 <;> by_cases hi : i % 2 = 0 <;> simp [hj, hi] <;> omega

/-- Membership in the initial working grid. -/
theorem mem_genInit (size : Nat) (t : MazeGenerationTile) :
    t ∈ genInit size ↔ ∃ i j, i < size ∧ j < size ∧
      t = ⟨⟨j, i⟩, ⟨j, i⟩, presetTileType j i⟩ := by
  rw [genInit]
  simp only [List.mem_flatMap, List.mem_map, List.mem_range]
  constructor
  · rintro ⟨i, hi, j, hj, rfl⟩
    exact ⟨i, j, hi, hj, rfl⟩
  · rintro ⟨i, j, hi, hj, rfl⟩
    exact ⟨i, hi, j, hj, rfl⟩

/-- The wall-candidate positions are exactly the wall positions of the grid. -/
theorem mem_wallPositions (size : Nat) (w : Position) :
    w ∈ wallPositions size ↔ IsWall size w := by
  rw [wallPositions, neither_map]
  simp only [List.mem_map, List.mem_filter]
  constructor
  · rintro ⟨t, ⟨htmem, htnone⟩, rfl⟩
    rw [mem_genInit] at htmem
    obtain ⟨i, j, hi, hj, rfl⟩ := htmem
    rw [Option.isNone_iff_eq_none] at htnone
    have hparity := (presetTileType_none j i).mp htnone
    exact ⟨hparity, hj, hi⟩
  · intro hw
    obtain ⟨hparity, hx, hy⟩ := hw
    refine ⟨⟨w, w, presetTileType w.x w.y⟩, ⟨?_, ?_⟩, rfl⟩
    · rw [mem_genInit]
      exact ⟨w.y, w.x, hy, hx, by rfl⟩
    · rw [Option.isNone_iff_eq_none]
      exact (presetTileType_none w.x w.y).mpr hparity

/-- `carveStep` preserves the working-grid length. -/
theorem length_carveStep (size : Nat) (m : List MazeGenerationTile) (pos : Position) :
    (carveStep size m pos).length = m.length := by
  rw [carveStep]
  cases hfind : find size m (size * size) (wallP pos) (wallQ pos) with
  | none => rfl
  | some pq =>
    obtain ⟨p, q⟩ := pq
    show (if p ≠ q then setLink size (setType size m pos (some TileType.Open)) p q
      else setType size m pos (some TileType.Blocked)).length = m.length
    by_cases hpq : p ≠ q
    · rw [if_pos hpq, length_setLink, length_setType]
    · rw [if_neg hpq, length_setType]

/-- `carveStep` leaves the tile type of every other in-bounds position
unchanged. -/
theorem typeAt_carveStep_ne (size : Nat) (m : List MazeGenerationTile) (pos r : Position)
    (hpos : InBounds size pos) (hr : InBounds size r) (hlen : m.length = size * size)
    (hne : r ≠ pos) :
    typeAt size (carveStep size m pos) r = typeAt size m r := by
  rw [carveStep]
  cases hfind : find size m (size * size) (wallP pos) (wallQ pos) with
  | none => rfl
  | some pq =>
    obtain ⟨p, q⟩ := pq
    show typeAt size (if p ≠ q then
        setLink size (setType size m pos (some TileType.Open)) p q
      else setType size m pos (some TileType.Blocked)) r = typeAt size m r
    by_cases hpq : p ≠ q
    · rw [if_pos hpq, typeAt_setLink, typeAt_setType size m pos _ r hpos hr hlen,
        if_neg hne]
    · rw [if_neg hpq, typeAt_setType size m pos _ r hpos hr hlen, if_neg hne]

/-- Cells are not walls and pillars are not walls (parity). -/
theorem cell_ne_wall (size : Nat) (p w : Position) (hp : IsCell size p)
    (hw : IsWall size w) : p ≠ w := by
  intro h
  subst h
  obtain ⟨h1, h2, _⟩ := hp
  obtain ⟨h3, _⟩ := hw
  omega

/-- Pillars are not walls (parity). -/
theorem pillar_ne_wall (size : Nat) (p w : Position) (hp : IsPillar size p)
    (hw : IsWall size w) : p ≠ w := by
  intro h
  subst h
  obtain ⟨h1, h2, _⟩ := hp
  obtain ⟨h3, _⟩ := hw
  omega

/-- Along any fold of `carveStep` over wall positions, length and the preset
cell/pillar tile types are preserved. -/
theorem carve_fold_types (size : Nat) (walls : List Position)
    (hw : ∀ w ∈ walls, IsWall size w) :
    ∀ (m : List MazeGenerationTile), m.length = size * size →
      (∀ p, IsCell size p → typeAt size m p = some TileType.Open) →
      (∀ p, IsPillar size p → typeAt size m p = some TileType.Blocked) →
      (walls.foldl (carveStep size) m).length = size * size ∧
      (∀ p, IsCell size p →
        typeAt size (walls.foldl (carveStep size) m) p = some TileType.Open) ∧
      (∀ p, IsPillar size p →
        typeAt size (walls.foldl (carveStep size) m) p = some TileType.Blocked) := by
  induction walls with
  | nil => intro m hlen hcell hpillar; exact ⟨hlen, hcell, hpillar⟩
  | cons w rest ih =>
    intro m hlen hcell hpillar
    have hww : IsWall size w := hw w (List.mem_cons_self w rest)
    have hwb : InBounds size w := hww.2
    rw [List.foldl_cons]
    apply ih (fun v hv => hw v (List.mem_cons_of_mem w hv))
    · rw [length_carveStep]
      exact hlen
    · intro p hp
      rw [typeAt_carveStep_ne size m w p hwb hp.2.2 hlen (cell_ne_wall size p w hp hww)]
      exact hcell p hp
    · intro p hp
      rw [typeAt_carveStep_ne size m w p hwb hp.2.2 hlen (pillar_ne_wall size p w hp hww)]
      exact hpillar p hp

/-- C3: for every odd size and every shuffle order, generation returns exactly
`size * size` tiles in row-major order, all Hidden; tiles with both
coordinates even are Open and tiles with both coordinates odd are Blocked. -/
theorem generate_layout_spec (size : Nat) (shuffled : List Position)
    (hodd : size % 2 = 1) (hperm : shuffled.Perm (wallPositions size)) :
    ∃ tiles, generate_random_map size shuffled = some tiles ∧
      tiles.length = size * size ∧
      (∀ i, i < size * size →
        (tiles.getD i default).visibility = TileVisibility.Hidden) ∧
      (∀ x y, x < size → y < size → x % 2 = 0 → y % 2 = 0 →
        (tiles.getD (size * y + x) default).tile_type = TileType.Open) ∧
      (∀ x y, x < size → y < size → x % 2 = 1 → y % 2 = 1 →
        (tiles.getD (size * y + x) default).tile_type = TileType.Blocked) := by
  have hwalls : ∀ w ∈ shuffled, IsWall size w := fun w hwm =>
    (mem_wallPositions size w).mp (hperm.mem_iff.mp hwm)
  have hinit_cell : ∀ p, IsCell size p →
      typeAt size (genInit size) p = some TileType.Open := by
    intro p hp
    rw [typeAt, genInit_getD size p hp.2.2]
    exact (presetTileType_open p.x p.y).mpr ⟨hp.1, hp.2.1⟩
  have hinit_pillar : ∀ p, IsPillar size p →
      typeAt size (genInit size) p = some TileType.Blocked := by
    intro p hp
    rw [typeAt, genInit_getD size p hp.2.2]
    exact (presetTileType_blocked p.x p.y).mpr ⟨hp.1, hp.2.1⟩
  obtain ⟨hflen, hfcell, hfpillar⟩ := carve_fold_types size shuffled hwalls (genInit size)
    (genInit_length size) hinit_cell hinit_pillar
  refine ⟨(shuffled.foldl (carveStep size) (genInit size)).map fun t =>
      { tile_type := t.tile_type.getD TileType.Blocked
        visibility := TileVisibility.Hidden }, ?_, ?_, ?_, ?_, ?_⟩
  · rw [generate_random_map, if_pos hodd]
  · rw [List.length_map]
    exact hflen
  · intro i hi
    rw [getD_map _ _ i default default (by rw [hflen]; exact hi)]
  · intro x y hx hy hx2 hy2
    rw [getD_map _ _ _ default default
      (by rw [hflen]; exact idxOf_lt size ⟨x, y⟩ ⟨hx, hy⟩)]
    have h2 : ((shuffled.foldl (carveStep size) (genInit size)).getD (size * y + x)
        default).tile_type = some TileType.Open :=
      hfcell ⟨x, y⟩ ⟨hx2, hy2, hx, hy⟩
    show (((shuffled.foldl (carveStep size) (genInit size)).getD (size * y + x)
      default).tile_type.getD TileType.Blocked) = TileType.Open
    rw [h2]
    rfl
  · intro x y hx hy hx2 hy2
    rw [getD_map _ _ _ default default
      (by rw [hflen]; exact idxOf_lt size ⟨x, y⟩ ⟨hx, hy⟩)]
    have h2 : ((shuffled.foldl (carveStep size) (genInit size)).getD (size * y + x)
        default).tile_type = some TileType.Blocked :=
      hfpillar ⟨x, y⟩ ⟨hx2, hy2, hx, hy⟩
    show (((shuffled.foldl (carveStep size) (genInit size)).getD (size * y + x)
      default).tile_type.getD TileType.Blocked) = TileType.Blocked
    rw [h2]
    rfl

/-- Witness for C3 at a concrete input: size 1, empty shuffle order. -/
theorem generate_layout_spec_witness :
    ∃ tiles, generate_random_map 1 [] = some tiles ∧
      tiles.length = 1 * 1 ∧
      (∀ i, i < 1 * 1 →
        (tiles.getD i default).visibility = TileVisibility.Hidden) ∧
      (∀ x y, x < 1 → y < 1 → x % 2 = 0 → y % 2 = 0 →
        (tiles.getD (1 * y + x) default).tile_type = TileType.Open) ∧
      (∀ x y, x < 1 → y < 1 → x % 2 = 1 → y % 2 = 1 →
        (tiles.getD (1 * y + x) default).tile_type = TileType.Blocked) :=
  generate_layout_spec 1 [] rfl (by decide)

/-- Reachability in a graph extended by one edge `a~b`: either a path avoiding
the new edge, or a path through it in one of the two directions. -/
theorem reachable_sup_edge {V : Type} {G H : SimpleGraph V} {a b : V}
    (hGH : ∀ u v, H.Adj u v ↔ G.Adj u v ∨ (u = a ∧ v = b) ∨ (u = b ∧ v = a)) (u v : V) :
    H.Reachable u v ↔ G.Reachable u v ∨ (G.Reachable u a ∧ G.Reachable b v) ∨
      (G.Reachable u b ∧ G.Reachable a v) := by
  have hle : G ≤ H := fun x y hxy => (hGH x y).mpr (Or.inl hxy)
  have hadj : H.Adj a b := (hGH a b).mpr (Or.inr (Or.inl ⟨rfl, rfl⟩))
  constructor
  · rintro ⟨wk⟩
    induction wk with
    | nil => exact Or.inl (SimpleGraph.Reachable.refl _)
    | cons h p ih =>
      rcases (hGH _ _).mp h with ha | ⟨hua, hxb⟩ | ⟨hub, hxa⟩
      · rcases ih with h1 | ⟨h1, h2⟩ | ⟨h1, h2⟩
        · exact Or.inl (ha.reachable.trans h1)
        · exact Or.inr (Or.inl ⟨ha.reachable.trans h1, h2⟩)
        · exact Or.inr (Or.inr ⟨ha.reachable.trans h1, h2⟩)
      · subst hua
        subst hxb
        rcases ih with h1 | ⟨h1, h2⟩ | ⟨h1, h2⟩
        · exact Or.inr (Or.inl ⟨SimpleGraph.Reachable.refl _, h1⟩)
        · exact Or.inl (h1.symm.trans h2)
        · exact Or.inl h2
      · subst hub
        subst hxa
        rcases ih with h1 | ⟨h1, h2⟩ | ⟨h1, h2⟩
        · exact Or.inr (Or.inr ⟨SimpleGraph.Reachable.refl _, h1⟩)
        · exact Or.inl h2
        · exact Or.inl (h1.symm.trans h2)
  · rintro (h | ⟨h1, h2⟩ | ⟨h1, h2⟩)
    · exact h.mono hle
    · exact ((h1.mono hle).trans hadj.reachable).trans (h2.mono hle)
    · exact ((h1.mono hle).trans hadj.symm.reachable).trans (h2.mono hle)

/-- Adding one edge between two vertices in different components preserves
acyclicity. -/
theorem isAcyclic_sup_edge {V : Type} {G H : SimpleGraph V} {a b : V}
    (hGH : ∀ u v, H.Adj u v ↔ G.Adj u v ∨ (u = a ∧ v = b) ∨ (u = b ∧ v = a))
    (hacyc : G.IsAcyclic) (hreach : ¬G.Reachable a b) : H.IsAcyclic := by
  intro x c hc
  by_cases he : s(a, b) ∈ c.edges
  · have hcyc : ∃ (u : V) (p : H.Walk u u), p.IsCycle ∧ s(a, b) ∈ p.edges := ⟨x, c, hc, he⟩
    have h2 := (SimpleGraph.adj_and_reachable_delete_edges_iff_exists_cycle (G := H)).mpr hcyc
    apply hreach
    refine SimpleGraph.Reachable.mono ?_ h2.2
    intro u v huv
    rw [SimpleGraph.sdiff_adj, SimpleGraph.fromEdgeSet_adj] at huv
    obtain ⟨h3, h4⟩ := huv
    rcases (hGH u v).mp h3 with h5 | h5 | h5
    · exact h5
    · exact absurd ⟨by rw [h5.1, h5.2]; exact Set.mem_singleton _, h3.ne⟩ h4
    · refine absurd ⟨?_, h3.ne⟩ h4
      rw [h5.1, h5.2, Sym2.eq_swap]
      exact Set.mem_singleton _
  · have hsub : ∀ e ∈ c.edges, e ∈ G.edgeSet := by
      intro e hein
      have he1 : e ∈ H.edgeSet := c.edges_subset_edgeSet hein
      induction e with
      | _ p q =>
        rw [SimpleGraph.mem_edgeSet] at he1 ⊢
        rcases (hGH p q).mp he1 with h5 | h5 | h5
        · exact h5
        · exfalso
          apply he
          rw [← h5.1, ← h5.2]
          exact hein
        · exfalso
          apply he
          rw [Sym2.eq_swap, ← h5.1, ← h5.2]
          exact hein
    exact hacyc (c.transfer G hsub) (hc.transfer hsub)

/-- Number of cells per axis. For odd `size` this equals `(size + 1) / 2`. -/
def nc (size : Nat) : Nat :=
  size / 2 + 1

/-- The cell-grid vertex of a position (meaningful on cell positions). -/
def toV (size : Nat) (p : Position) : Fin (nc size) × Fin (nc size) :=
  (⟨p.x / 2 % nc size, Nat.mod_lt _ (Nat.succ_pos _)⟩,
   ⟨p.y / 2 % nc size, Nat.mod_lt _ (Nat.succ_pos _)⟩)

/-- The grid position of a cell-grid vertex. -/
def pos2 (size : Nat) (v : Fin (nc size) × Fin (nc size)) : Position :=
  ⟨2 * v.1.val, 2 * v.2.val⟩

/-- `toV` is a left inverse of `pos2`. -/
theorem toV_pos2 (size : Nat) (v : Fin (nc size) × Fin (nc size)) :
    toV size (pos2 size v) = v := by
  obtain ⟨⟨a, ha⟩, ⟨b, hb⟩⟩ := v
  rw [toV, pos2, Prod.mk.injEq]
  constructor
  · rw [Fin.mk.injEq]
    show 2 * a / 2 % nc size = a
    rw [Nat.mul_div_cancel_left a (by omega), Nat.mod_eq_of_lt ha]
  · rw [Fin.mk.injEq]
    show 2 * b / 2 % nc size = b
    rw [Nat.mul_div_cancel_left b (by omega), Nat.mod_eq_of_lt hb]

/-- `pos2` of a vertex is a cell (odd size). -/
theorem isCell_pos2 (size : Nat) (hodd : size % 2 = 1)
    (v : Fin (nc size) × Fin (nc size)) : IsCell size (pos2 size v) := by
  obtain ⟨⟨a, ha⟩, ⟨b, hb⟩⟩ := v
  rw [nc] at ha hb
  exact ⟨by show 2 * a % 2 = 0; omega, by show 2 * b % 2 = 0; omega,
    by show 2 * a < size; omega, by show 2 * b < size; omega⟩

/-- Component values of `toV` on a cell: doubling recovers the coordinates. -/
theorem toV_val (size : Nat) (p : Position) (hp : IsCell size p) :
    2 * (toV size p).1.val = p.x ∧ 2 * (toV size p).2.val = p.y := by
  obtain ⟨hx2, hy2, hx, hy⟩ := hp
  rw [toV]
  constructor
  · show 2 * (p.x / 2 % nc size) = p.x
    rw [Nat.mod_eq_of_lt (by rw [nc]; omega)]
    omega
  · show 2 * (p.y / 2 % nc size) = p.y
    rw [Nat.mod_eq_of_lt (by rw [nc]; omega)]
    omega

/-- `pos2` is a left inverse of `toV` on cells. -/
theorem pos2_toV (size : Nat) (p : Position) (hp : IsCell size p) :
    pos2 size (toV size p) = p := by
  obtain ⟨h1, h2⟩ := toV_val size p hp
  obtain ⟨px, py⟩ := p
  rw [pos2, Position.mk.injEq]
  exact ⟨h1, h2⟩

/-- `toV` is injective on cells. -/
theorem toV_inj (size : Nat) (p q : Position) (hp : IsCell size p) (hq : IsCell size q)
    (h : toV size p = toV size q) : p = q := by
  rw [← pos2_toV size p hp, ← pos2_toV size q hq, h]

/-- Adjacency of cell-grid vertices through an Open wall tile, for an
arbitrary openness test `op` on positions: horizontally adjacent vertices with
the wall between them open, or vertically adjacent ones. -/
def adjOpen (size : Nat) (op : Position → Bool)
    (u v : Fin (nc size) × Fin (nc size)) : Prop :=
  (u.2 = v.2 ∧ (u.1.val + 1 = v.1.val ∨ v.1.val + 1 = u.1.val) ∧
    op ⟨u.1.val + v.1.val, 2 * u.2.val⟩ = true) ∨
  (u.1 = v.1 ∧ (u.2.val + 1 = v.2.val ∨ v.2.val + 1 = u.2.val) ∧
    op ⟨2 * u.1.val, u.2.val + v.2.val⟩ = true)

/-- The cell graph induced by an openness test on wall positions. -/
def openGraph (size : Nat) (op : Position → Bool) :
    SimpleGraph (Fin (nc size) × Fin (nc size)) where
  Adj := adjOpen size op
  symm := by
    intro u v h
    rcases h with ⟨h2, h1, hop⟩ | ⟨h1, h2, hop⟩
    · refine Or.inl ⟨h2.symm, h1.symm, ?_⟩
      have hval : v.2.val = u.2.val := by rw [h2]
      rw [show v.1.val + u.1.val = u.1.val + v.1.val by omega, hval]
      exact hop
    · refine Or.inr ⟨h1.symm, h2.symm, ?_⟩
      have hval : v.1.val = u.1.val := by rw [h1]
      rw [show v.2.val + u.2.val = u.2.val + v.2.val by omega, hval]
      exact hop
  loopless := by
    intro u h
    rcases h with ⟨_, h1, _⟩ | ⟨_, h1, _⟩ <;> omega

/-- The cell graph of a generation-time working grid: cells joined through
wall positions currently typed `Some(Open)`. -/
def genGraph (size : Nat) (m : List MazeGenerationTile) :
    SimpleGraph (Fin (nc size) × Fin (nc size)) :=
  openGraph size fun p => decide (typeAt size m p = some TileType.Open)

/-- The cell graph of a finished tile list: cells at even/even positions
joined through Open tiles at wall positions (the graph claim C1 speaks
about). -/
def mazeGraph (size : Nat) (tiles : List Tile) :
    SimpleGraph (Fin (nc size) × Fin (nc size)) :=
  openGraph size fun p => decide ((tiles.getD (idxOf size p) default).tile_type = TileType.Open)

/-- The first neighbour of a wall is a cell (odd size). -/
theorem wallP_cell (size : Nat) (hodd : size % 2 = 1) (w : Position)
    (hw : IsWall size w) : IsCell size (wallP w) := by
  obtain ⟨hpar, hx, hy⟩ := hw
  obtain ⟨wx, wy⟩ := w
  have hx2 : wx < size := hx
  have hy2 : wy < size := hy
  have hpar2 : (wx + wy) % 2 = 1 := hpar
  rw [wallP]
  by_cases hye : wy % 2 = 0
  · rw [if_pos hye]
    exact ⟨by show (wx + 1) % 2 = 0; omega, by show wy % 2 = 0; omega,
      by show wx + 1 < size; omega, by show wy < size; omega⟩
  · rw [if_neg hye]
    exact ⟨by show wx % 2 = 0; omega, by show (wy - 1) % 2 = 0; omega,
      by show wx < size; omega, by show wy - 1 < size; omega⟩

/-- The second neighbour of a wall is a cell (odd size). -/
theorem wallQ_cell (size : Nat) (hodd : size % 2 = 1) (w : Position)
    (hw : IsWall size w) : IsCell size (wallQ w) := by
  obtain ⟨hpar, hx, hy⟩ := hw
  obtain ⟨wx, wy⟩ := w
  have hx2 : wx < size := hx
  have hy2 : wy < size := hy
  have hpar2 : (wx + wy) % 2 = 1 := hpar
  rw [wallQ]
  by_cases hye : wy % 2 = 0
  · rw [if_pos hye]
    exact ⟨by show (wx - 1) % 2 = 0; omega, by show wy % 2 = 0; omega,
      by show wx - 1 < size; omega, by show wy < size; omega⟩
  · rw [if_neg hye]
    exact ⟨by show wx % 2 = 0; omega, by show (wy + 1) % 2 = 0; omega,
      by show wx < size; omega, by show wy + 1 < size; omega⟩

/-- The midpoint of two horizontally adjacent cell vertices is a wall. -/
theorem mid_horiz_wall (size : Nat) (hodd : size % 2 = 1)
    (u v : Fin (nc size) × Fin (nc size))
    (h1 : u.1.val + 1 = v.1.val ∨ v.1.val + 1 = u.1.val) :
    IsWall size ⟨u.1.val + v.1.val, 2 * u.2.val⟩ := by
  have hu1 : u.1.val < size / 2 + 1 := u.1.isLt
  have hv1 : v.1.val < size / 2 + 1 := v.1.isLt
  have hu2 : u.2.val < size / 2 + 1 := u.2.isLt
  exact ⟨by show (u.1.val + v.1.val + 2 * u.2.val) % 2 = 1; omega,
    by show u.1.val + v.1.val < size; omega,
    by show 2 * u.2.val < size; omega⟩

/-- The midpoint of two vertically adjacent cell vertices is a wall. -/
theorem mid_vert_wall (size : Nat) (hodd : size % 2 = 1)
    (u v : Fin (nc size) × Fin (nc size))
    (h2 : u.2.val + 1 = v.2.val ∨ v.2.val + 1 = u.2.val) :
    IsWall size ⟨2 * u.1.val, u.2.val + v.2.val⟩ := by
  have hu1 : u.1.val < size / 2 + 1 := u.1.isLt
  have hu2 : u.2.val < size / 2 + 1 := u.2.isLt
  have hv2 : v.2.val < size / 2 + 1 := v.2.isLt
  exact ⟨by show (2 * u.1.val + (u.2.val + v.2.val)) % 2 = 1; omega,
    by show 2 * u.1.val < size; omega,
    by show u.2.val + v.2.val < size; omega⟩

/-- An open wall joins the vertices of its two neighbouring cells. -/
theorem wall_pair_adj (size : Nat) (hodd : size % 2 = 1) (w : Position)
    (hw : IsWall size w) (op : Position → Bool) (hopw : op w = true) :
    adjOpen size op (toV size (wallP w)) (toV size (wallQ w)) := by
  have hpar : (w.x + w.y) % 2 = 1 := hw.1
  have hwx : w.x < size := hw.2.1
  have hwy : w.y < size := hw.2.2
  have hPc := wallP_cell size hodd w hw
  have hQc := wallQ_cell size hodd w hw
  by_cases hye : w.y % 2 = 0
  · have hP : wallP w = ⟨w.x + 1, w.y⟩ := by rw [wallP, if_pos hye]
    have hQ : wallQ w = ⟨w.x - 1, w.y⟩ := by rw [wallQ, if_pos hye]
    rw [hP] at hPc
    rw [hQ] at hQc
    rw [hP, hQ]
    have hu1 : 2 * (toV size ⟨w.x + 1, w.y⟩).1.val = w.x + 1 := (toV_val size _ hPc).1
    have hu2 : 2 * (toV size ⟨w.x + 1, w.y⟩).2.val = w.y := (toV_val size _ hPc).2
    have hv1 : 2 * (toV size ⟨w.x - 1, w.y⟩).1.val = w.x - 1 := (toV_val size _ hQc).1
    have hv2 : 2 * (toV size ⟨w.x - 1, w.y⟩).2.val = w.y := (toV_val size _ hQc).2
    refine Or.inl ⟨Fin.ext (by omega), Or.inr (by omega), ?_⟩
    have hmid : (⟨(toV size ⟨w.x + 1, w.y⟩).1.val + (toV size ⟨w.x - 1, w.y⟩).1.val,
        2 * (toV size ⟨w.x + 1, w.y⟩).2.val⟩ : Position) = w := by
      show (⟨(toV size ⟨w.x + 1, w.y⟩).1.val + (toV size ⟨w.x - 1, w.y⟩).1.val,
        2 * (toV size ⟨w.x + 1, w.y⟩).2.val⟩ : Position) = ⟨w.x, w.y⟩
      rw [Position.mk.injEq]
      exact ⟨by omega, by omega⟩
    rw [hmid]
    exact hopw
  · have hP : wallP w = ⟨w.x, w.y - 1⟩ := by rw [wallP, if_neg hye]
    have hQ : wallQ w = ⟨w.x, w.y + 1⟩ := by rw [wallQ, if_neg hye]
    rw [hP] at hPc
    rw [hQ] at hQc
    rw [hP, hQ]
    have hu1 : 2 * (toV size ⟨w.x, w.y - 1⟩).1.val = w.x := (toV_val size _ hPc).1
    have hu2 : 2 * (toV size ⟨w.x, w.y - 1⟩).2.val = w.y - 1 := (toV_val size _ hPc).2
    have hv1 : 2 * (toV size ⟨w.x, w.y + 1⟩).1.val = w.x := (toV_val size _ hQc).1
    have hv2 : 2 * (toV size ⟨w.x, w.y + 1⟩).2.val = w.y + 1 := (toV_val size _ hQc).2
    refine Or.inr ⟨Fin.ext (by omega), Or.inl (by omega), ?_⟩
    have hmid : (⟨2 * (toV size ⟨w.x, w.y - 1⟩).1.val,
        (toV size ⟨w.x, w.y - 1⟩).2.val + (toV size ⟨w.x, w.y + 1⟩).2.val⟩ : Position) =
        w := by
      show (⟨2 * (toV size ⟨w.x, w.y - 1⟩).1.val,
        (toV size ⟨w.x, w.y - 1⟩).2.val + (toV size ⟨w.x, w.y + 1⟩).2.val⟩ : Position) =
        ⟨w.x, w.y⟩
      rw [Position.mk.injEq]
      exact ⟨by omega, by omega⟩
    rw [hmid]
    exact hopw

/-- Every adjacency of the cell graph comes from a unique open wall: the edge
joins exactly the vertices of that wall's two neighbouring cells. -/
theorem adj_decompose (size : Nat) (hodd : size % 2 = 1) (op : Position → Bool)
    (u v : Fin (nc size) × Fin (nc size)) (h : adjOpen size op u v) :
    ∃ w, IsWall size w ∧ op w = true ∧
      ((u = toV size (wallP w) ∧ v = toV size (wallQ w)) ∨
       (u = toV size (wallQ w) ∧ v = toV size (wallP w))) := by
  rcases h with ⟨h2, h1, hop⟩ | ⟨h1, h2, hop⟩
  · refine ⟨⟨u.1.val + v.1.val, 2 * u.2.val⟩, mid_horiz_wall size hodd u v h1, hop, ?_⟩
    have hv2 : u.2.val = v.2.val := by rw [h2]
    have hye : ((⟨u.1.val + v.1.val, 2 * u.2.val⟩ : Position)).y % 2 = 0 := by
      show 2 * u.2.val % 2 = 0
      omega
    have hP : wallP ⟨u.1.val + v.1.val, 2 * u.2.val⟩ =
        ⟨u.1.val + v.1.val + 1, 2 * u.2.val⟩ := by
      rw [wallP, if_pos hye]
    have hQ : wallQ ⟨u.1.val + v.1.val, 2 * u.2.val⟩ =
        ⟨u.1.val + v.1.val - 1, 2 * u.2.val⟩ := by
      rw [wallQ, if_pos hye]
    rcases h1 with hA | hB
    · right
      constructor
      · rw [hQ]
        have hq : (⟨u.1.val + v.1.val - 1, 2 * u.2.val⟩ : Position) = pos2 size u := by
          rw [pos2, Position.mk.injEq]
          exact ⟨by omega, rfl⟩
        rw [hq, toV_pos2]
      · rw [hP]
        have hp : (⟨u.1.val + v.1.val + 1, 2 * u.2.val⟩ : Position) = pos2 size v := by
          rw [pos2, Position.mk.injEq]
          exact ⟨by omega, by omega⟩
        rw [hp, toV_pos2]
    · left
      constructor
      · rw [hP]
        have hp : (⟨u.1.val + v.1.val + 1, 2 * u.2.val⟩ : Position) = pos2 size u := by
          rw [pos2, Position.mk.injEq]
          exact ⟨by omega, rfl⟩
        rw [hp, toV_pos2]
      · rw [hQ]
        have hq : (⟨u.1.val + v.1.val - 1, 2 * u.2.val⟩ : Position) = pos2 size v := by
          rw [pos2, Position.mk.injEq]
          exact ⟨by omega, by omega⟩
        rw [hq, toV_pos2]
  · refine ⟨⟨2 * u.1.val, u.2.val + v.2.val⟩, mid_vert_wall size hodd u v h2, hop, ?_⟩
    have hv1 : u.1.val = v.1.val := by rw [h1]
    have hyo : ¬((⟨2 * u.1.val, u.2.val + v.2.val⟩ : Position)).y % 2 = 0 := by
      show ¬(u.2.val + v.2.val) % 2 = 0
      omega
    have hP : wallP ⟨2 * u.1.val, u.2.val + v.2.val⟩ =
        ⟨2 * u.1.val, u.2.val + v.2.val - 1⟩ := by
      rw [wallP, if_neg hyo]
    have hQ : wallQ ⟨2 * u.1.val, u.2.val + v.2.val⟩ =
        ⟨2 * u.1.val, u.2.val + v.2.val + 1⟩ := by
      rw [wallQ, if_neg hyo]
    rcases h2 with hA | hB
    · left
      constructor
      · rw [hP]
        have hp : (⟨2 * u.1.val, u.2.val + v.2.val - 1⟩ : Position) = pos2 size u := by
          rw [pos2, Position.mk.injEq]
          exact ⟨rfl, by omega⟩
        rw [hp, toV_pos2]
      · rw [hQ]
        have hq : (⟨2 * u.1.val, u.2.val + v.2.val + 1⟩ : Position) = pos2 size v := by
          rw [pos2, Position.mk.injEq]
          exact ⟨by omega, by omega⟩
        rw [hq, toV_pos2]
    · right
      constructor
      · rw [hQ]
        have hq : (⟨2 * u.1.val, u.2.val + v.2.val + 1⟩ : Position) = pos2 size u := by
          rw [pos2, Position.mk.injEq]
          exact ⟨rfl, by omega⟩
        rw [hq, toV_pos2]
      · rw [hP]
        have hp : (⟨2 * u.1.val, u.2.val + v.2.val - 1⟩ : Position) = pos2 size v := by
          rw [pos2, Position.mk.injEq]
          exact ⟨by omega, by omega⟩
        rw [hp, toV_pos2]

/-- Two openness tests agreeing on walls give the same cell graph. -/
theorem openGraph_congr (size : Nat) (hodd : size % 2 = 1) (op1 op2 : Position → Bool)
    (h : ∀ p, IsWall size p → op1 p = op2 p) :
    openGraph size op1 = openGraph size op2 := by
  apply SimpleGraph.ext
  funext u v
  apply propext
  constructor
  · intro hadj
    rcases hadj with ⟨h2, h1, hop⟩ | ⟨h1, h2, hop⟩
    · exact Or.inl ⟨h2, h1, by rw [← h _ (mid_horiz_wall size hodd u v h1)]; exact hop⟩
    · exact Or.inr ⟨h1, h2, by rw [← h _ (mid_vert_wall size hodd u v h2)]; exact hop⟩
  · intro hadj
    rcases hadj with ⟨h2, h1, hop⟩ | ⟨h1, h2, hop⟩
    · exact Or.inl ⟨h2, h1, by rw [h _ (mid_horiz_wall size hodd u v h1)]; exact hop⟩
    · exact Or.inr ⟨h1, h2, by rw [h _ (mid_vert_wall size hodd u v h2)]; exact hop⟩

/-- Opening one previously undecided wall `w` adds exactly the edge between
the vertices of its two neighbouring cells. -/
theorem adj_open_wall (size : Nat) (hodd : size % 2 = 1) (w : Position)
    (hw : IsWall size w) (op1 op2 : Position → Bool)
    (hop1w : op1 w = false) (hop2w : op2 w = true)
    (hagree : ∀ p, IsWall size p → p ≠ w → op1 p = op2 p)
    (u v : Fin (nc size) × Fin (nc size)) :
    adjOpen size op2 u v ↔ adjOpen size op1 u v ∨
      (u = toV size (wallP w) ∧ v = toV size (wallQ w)) ∨
      (u = toV size (wallQ w) ∧ v = toV size (wallP w)) := by
  constructor
  · intro h
    obtain ⟨w2, hw2, hop2, hpair⟩ := adj_decompose size hodd op2 u v h
    by_cases hww : w2 = w
    · subst hww
      exact Or.inr hpair
    · left
      have hop1 : op1 w2 = true := by rw [hagree w2 hw2 hww]; exact hop2
      rcases hpair with ⟨rfl, rfl⟩ | ⟨rfl, rfl⟩
      · exact wall_pair_adj size hodd w2 hw2 op1 hop1
      · exact (openGraph size op1).symm (wall_pair_adj size hodd w2 hw2 op1 hop1)
  · intro h
    rcases h with h | ⟨rfl, rfl⟩ | ⟨rfl, rfl⟩
    · rcases h with ⟨h2, h1, hop⟩ | ⟨h1, h2, hop⟩
      · refine Or.inl ⟨h2, h1, ?_⟩
        have hne : (⟨u.1.val + v.1.val, 2 * u.2.val⟩ : Position) ≠ w := by
          intro hc
          rw [hc, hop1w] at hop
          exact absurd hop (by decide)
        rw [← hagree _ (mid_horiz_wall size hodd u v h1) hne]
        exact hop
      · refine Or.inr ⟨h1, h2, ?_⟩
        have hne : (⟨2 * u.1.val, u.2.val + v.2.val⟩ : Position) ≠ w := by
          intro hc
          rw [hc, hop1w] at hop
          exact absurd hop (by decide)
        rw [← hagree _ (mid_vert_wall size hodd u v h2) hne]
        exact hop
    · exact wall_pair_adj size hodd w hw op2 hop2w
    · exact (openGraph size op2).symm (wall_pair_adj size hodd w hw op2 hop2w)

/-- `findRoot` depends only on the link function. -/
theorem findRoot_congr (size : Nat) (m1 m2 : List MazeGenerationTile)
    (h : ∀ p, linkAt size m1 p = linkAt size m2 p) :
    ∀ (n : Nat) (p : Position), findRoot size m1 n p = findRoot size m2 n p := by
  intro n
  induction n with
  | zero => intro p; rfl
  | succ n ih =>
    intro p
    rw [findRoot, findRoot, h p]
    split
    · rfl
    · exact ih _

/-- Roots of cells are cells when links map cells to cells. -/
theorem findRoot_cell (size : Nat) (m : List MazeGenerationTile)
    (hcl : ∀ p, IsCell size p → IsCell size (linkAt size m p)) :
    ∀ (n : Nat) (p r : Position), IsCell size p → findRoot size m n p = some r →
      IsCell size r := by
  intro n
  induction n with
  | zero => intro p r _ h; exact absurd h (by simp [findRoot])
  | succ n ih =>
    intro p r hp h
    rw [findRoot] at h
    by_cases hfix : p = linkAt size m p
    · rw [if_pos hfix, Option.some_inj] at h
      rw [← h]
      exact hp
    · rw [if_neg hfix] at h
      exact ih _ r (hcl p hp) h

/-- Root lookup after a union `link rp := rq` (on a grid whose links are
otherwise unchanged on cells): every root resolves as before, except that the
absorbed root `rp` now resolves to `rq`; one extra unit of fuel suffices. -/
theorem findRoot_union (size : Nat) (m m2 : List MazeGenerationTile) (rp rq : Position)
    (hrp : linkAt size m rp = rp) (hrq : linkAt size m rq = rq) (hne : rp ≠ rq)
    (hrqc : IsCell size rq)
    (hm2 : ∀ p, IsCell size p → linkAt size m2 p = if p = rp then rq else linkAt size m p)
    (hcl : ∀ p, IsCell size p → IsCell size (linkAt size m p)) :
    ∀ (n : Nat) (p r : Position), IsCell size p → findRoot size m n p = some r →
      findRoot size m2 (n + 1) p = some (if r = rp then rq else r) := by
  intro n
  induction n with
  | zero => intro p r _ h; exact absurd h (by simp [findRoot])
  | succ n ih =>
    intro p r hp h
    rw [findRoot] at h
    by_cases hfix : p = linkAt size m p
    · rw [if_pos hfix, Option.some_inj] at h
      subst h
      by_cases hpr : p = rp
      · subst hpr
        rw [if_pos rfl]
        have h1 : linkAt size m2 p = rq := by rw [hm2 p hp, if_pos rfl]
        have h2 : linkAt size m2 rq = rq := by
          rw [hm2 rq hrqc, if_neg (fun hc => hne hc.symm), hrq]
        rw [findRoot, if_neg (by rw [h1]; exact hne), h1, findRoot, if_pos h2.symm]
      · rw [if_neg hpr]
        have h1 : linkAt size m2 p = p := by rw [hm2 p hp, if_neg hpr, ← hfix]
        rw [findRoot, if_pos h1.symm]
    · rw [if_neg hfix] at h
      have hppr : p ≠ rp := fun hc => hfix (by rw [hc, hrp])
      have h1 : linkAt size m2 p = linkAt size m p := by rw [hm2 p hp, if_neg hppr]
      rw [findRoot, if_neg (by rw [h1]; exact hfix), h1]
      exact ih (linkAt size m p) r (hcl p hp) h

/-- The invariant maintained by `generate_random_map` over the carve loop.
`k` counts processed wall candidates, `todo` is the remaining ones. -/
structure GenInv (size : Nat) (k : Nat) (todo : List Position)
    (m : List MazeGenerationTile) : Prop where
  len : m.length = size * size
  cellType : ∀ p, IsCell size p → typeAt size m p = some TileType.Open
  pillarType : ∀ p, IsPillar size p → typeAt size m p = some TileType.Blocked
  todoNone : ∀ w, w ∈ todo → typeAt size m w = none
  noneTodo : ∀ w, IsWall size w → typeAt size m w = none → w ∈ todo
  linkCell : ∀ p, IsCell size p → IsCell size (linkAt size m p)
  forest : ∀ p, IsCell size p → ∃ r, findRoot size m (k + 1) p = some r
  rootIff : ∀ p q rp rq, IsCell size p → IsCell size q →
    findRoot size m (k + 1) p = some rp → findRoot size m (k + 1) q = some rq →
    (rp = rq ↔ (genGraph size m).Reachable (toV size p) (toV size q))
  blockedReach : ∀ w, IsWall size w → typeAt size m w = some TileType.Blocked →
    (genGraph size m).Reachable (toV size (wallP w)) (toV size (wallQ w))
  acyclic : (genGraph size m).IsAcyclic

/-- Unfolding of `genGraph` adjacency. -/
theorem genGraph_adj (size : Nat) (m : List MazeGenerationTile)
    (u v : Fin (nc size) × Fin (nc size)) :
    (genGraph size m).Adj u v =
      adjOpen size (fun p => decide (typeAt size m p = some TileType.Open)) u v := rfl

/-- The initial cell graph has no edges. -/
theorem genGraph_init_bot (size : Nat) (hodd : size % 2 = 1) :
    genGraph size (genInit size) = (⊥ : SimpleGraph (Fin (nc size) × Fin (nc size))) := by
  apply SimpleGraph.ext
  funext u v
  apply propext
  constructor
  · intro h
    rw [genGraph_adj] at h
    obtain ⟨w, hw, hop, _⟩ := adj_decompose size hodd _ u v h
    rw [decide_eq_true_iff] at hop
    rw [typeAt, genInit_getD size w hw.2] at hop
    have hnone : presetTileType w.x w.y = none := (presetTileType_none w.x w.y).mpr hw.1
    rw [hnone] at hop
    exact Option.noConfusion hop
  · intro h
    exact absurd h (by simp)

/-- The invariant holds at the start of the carve loop. -/
theorem genInv_init (size : Nat) (hodd : size % 2 = 1) :
    GenInv size 0 (wallPositions size) (genInit size) := by
  have hlink : ∀ p, InBounds size p → linkAt size (genInit size) p = p := by
    intro p hp
    rw [linkAt, genInit_getD size p hp]
  refine ⟨genInit_length size, ?_, ?_, ?_, ?_, ?_, ?_, ?_, ?_, ?_⟩
  · intro p hp
    rw [typeAt, genInit_getD size p hp.2.2]
    exact (presetTileType_open p.x p.y).mpr ⟨hp.1, hp.2.1⟩
  · intro p hp
    rw [typeAt, genInit_getD size p hp.2.2]
    exact (presetTileType_blocked p.x p.y).mpr ⟨hp.1, hp.2.1⟩
  · intro w hw
    have hww : IsWall size w := (mem_wallPositions size w).mp hw
    rw [typeAt, genInit_getD size w hww.2]
    exact (presetTileType_none w.x w.y).mpr hww.1
  · intro w hw _
    exact (mem_wallPositions size w).mpr hw
  · intro p hp
    rw [hlink p hp.2.2]
    exact hp
  · intro p hp
    exact ⟨p, by rw [findRoot, if_pos (hlink p hp.2.2).symm]⟩
  · intro p q rp rq hp hq hrp hrq
    rw [findRoot, if_pos (hlink p hp.2.2).symm, Option.some_inj] at hrp
    rw [findRoot, if_pos (hlink q hq.2.2).symm, Option.some_inj] at hrq
    rw [genGraph_init_bot size hodd, SimpleGraph.reachable_bot]
    subst hrp
    subst hrq
    constructor
    · intro h
      rw [h]
    · intro h
      exact toV_inj size p q hp hq h
  · intro w hw hB
    rw [typeAt, genInit_getD size w hw.2] at hB
    have hnone : presetTileType w.x w.y = none := (presetTileType_none w.x w.y).mpr hw.1
    rw [hnone] at hB
    exact Option.noConfusion hB
  · rw [genGraph_init_bot size hodd]
    exact SimpleGraph.isAcyclic_bot

/-- One step of the carve loop preserves the generation invariant. -/
theorem genInv_step (size : Nat) (hodd : size % 2 = 1) (k : Nat) (w : Position)
    (rest : List Position) (m : List MazeGenerationTile)
    (inv : GenInv size k (w :: rest) m) (hw : IsWall size w) (hnotin : w ∉ rest)
    (hrestw : ∀ v ∈ rest, IsWall size v) (hks : k + 1 ≤ size * size) :
    GenInv size (k + 1) rest (carveStep size m w) := by
  have hwnone : typeAt size m w = none := inv.todoNone w (List.mem_cons_self w rest)
  have hPc : IsCell size (wallP w) := wallP_cell size hodd w hw
  have hQc : IsCell size (wallQ w) := wallQ_cell size hodd w hw
  obtain ⟨rp, hrp⟩ := inv.forest (wallP w) hPc
  obtain ⟨rq, hrq⟩ := inv.forest (wallQ w) hQc
  have hrp2 : findRoot size m (size * size) (wallP w) = some rp :=
    findRoot_le size m (k + 1) (size * size) _ rp hks hrp
  have hrq2 : findRoot size m (size * size) (wallQ w) = some rq :=
    findRoot_le size m (k + 1) (size * size) _ rq hks hrq
  have hfind : find size m (size * size) (wallP w) (wallQ w) = some (rp, rq) :=
    find_of_findRoot size m (size * size) _ _ rp rq hrp2 hrq2
  have hrpc : IsCell size rp := findRoot_cell size m inv.linkCell _ _ rp hPc hrp
  have hrqc : IsCell size rq := findRoot_cell size m inv.linkCell _ _ rq hQc hrq
  have hrpfix : linkAt size m rp = rp := findRoot_fixed size m _ _ rp hrp
  have hrqfix : linkAt size m rq = rq := findRoot_fixed size m _ _ rq hrq
  have hcarve : carveStep size m w =
      (if rp ≠ rq then setLink size (setType size m w (some TileType.Open)) rp rq
       else setType size m w (some TileType.Blocked)) := by
    rw [carveStep, hfind]
  by_cases hne : rp ≠ rq
  · rw [hcarve, if_pos hne]
    have htype : ∀ p, InBounds size p →
        typeAt size (setLink size (setType size m w (some TileType.Open)) rp rq) p =
          if p = w then some TileType.Open else typeAt size m p := by
      intro p hp
      rw [typeAt_setLink, typeAt_setType size m w _ p hw.2 hp inv.len]
    have hlink2 : ∀ p, IsCell size p →
        linkAt size (setLink size (setType size m w (some TileType.Open)) rp rq) p =
          if p = rp then rq else linkAt size m p := by
      intro p hp
      rw [linkAt_setLink size _ rp rq p hrpc.2.2 hp.2.2
        (by rw [length_setType]; exact inv.len), linkAt_setType]
    have hGH : ∀ u v,
        (genGraph size (setLink size (setType size m w (some TileType.Open)) rp rq)).Adj
            u v ↔
          (genGraph size m).Adj u v ∨
          (u = toV size (wallP w) ∧ v = toV size (wallQ w)) ∨
          (u = toV size (wallQ w) ∧ v = toV size (wallP w)) := by
      intro u v
      rw [genGraph_adj, genGraph_adj]
      apply adj_open_wall size hodd w hw
      · rw [decide_eq_false_iff_not, hwnone]
        intro hc
        exact Option.noConfusion hc
      · rw [decide_eq_true_iff, htype w hw.2, if_pos rfl]
      · intro p hpw hpne
        rw [htype p hpw.2, if_neg hpne]
    have hnreach :
        ¬(genGraph size m).Reachable (toV size (wallP w)) (toV size (wallQ w)) := by
      intro hc
      exact hne ((inv.rootIff (wallP w) (wallQ w) rp rq hPc hQc hrp hrq).mpr hc)
    refine ⟨?_, ?_, ?_, ?_, ?_, ?_, ?_, ?_, ?_, ?_⟩
    · rw [length_setLink, length_setType]
      exact inv.len
    · intro p hp
      rw [htype p hp.2.2, if_neg (cell_ne_wall size p w hp hw)]
      exact inv.cellType p hp
    · intro p hp
      rw [htype p hp.2.2, if_neg (pillar_ne_wall size p w hp hw)]
      exact inv.pillarType p hp
    · intro v hv
      rw [htype v (hrestw v hv).2, if_neg (fun hc => hnotin (by rw [hc] at hv; exact hv))]
      exact inv.todoNone v (List.mem_cons_of_mem w hv)
    · intro v hvw hvnone
      have hvne : v ≠ w := by
        intro hc
        subst hc
        rw [htype v hvw.2, if_pos rfl] at hvnone
        exact Option.noConfusion hvnone
      rw [htype v hvw.2, if_neg hvne] at hvnone
      rcases List.mem_cons.mp (inv.noneTodo v hvw hvnone) with hc | hc
      · exact absurd hc hvne
      · exact hc
    · intro p hp
      rw [hlink2 p hp]
      split
      · exact hrqc
      · exact inv.linkCell p hp
    · intro p hp
      obtain ⟨r, hr⟩ := inv.forest p hp
      exact ⟨if r = rp then rq else r,
        findRoot_union size m _ rp rq hrpfix hrqfix hne hrqc hlink2 inv.linkCell
          (k + 1) p r hp hr⟩
    · intro p q rp2 rq2 hp hq hrp2' hrq2'
      obtain ⟨r1, hr1⟩ := inv.forest p hp
      obtain ⟨r2, hr2⟩ := inv.forest q hq
      have hu1 := findRoot_union size m _ rp rq hrpfix hrqfix hne hrqc hlink2
        inv.linkCell (k + 1) p r1 hp hr1
      have hu2 := findRoot_union size m _ rp rq hrpfix hrqfix hne hrqc hlink2
        inv.linkCell (k + 1) q r2 hq hr2
      rw [hu1] at hrp2'
      rw [hu2] at hrq2'
      obtain rfl := Option.some_inj.mp hrp2'
      obtain rfl := Option.some_inj.mp hrq2'
      rw [reachable_sup_edge hGH (toV size p) (toV size q)]
      have e1 := inv.rootIff p q r1 r2 hp hq hr1 hr2
      have e2 := inv.rootIff p (wallP w) r1 rp hp hPc hr1 hrp
      have e3 := inv.rootIff (wallQ w) q rq r2 hQc hq hrq hr2
      have e4 := inv.rootIff p (wallQ w) r1 rq hp hQc hr1 hrq
      have e5 := inv.rootIff (wallP w) q rp r2 hPc hq hrp hr2
      constructor
      · intro hup
        by_cases c1 : r1 = rp <;> by_cases c2 : r2 = rp
        · exact Or.inl (e1.mp (by rw [c1, c2]))
        · rw [if_pos c1, if_neg c2] at hup
          exact Or.inr (Or.inl ⟨e2.mp c1, e3.mp hup⟩)
        · rw [if_neg c1, if_pos c2] at hup
          exact Or.inr (Or.inr ⟨e4.mp hup, e5.mp c2.symm⟩)
        · rw [if_neg c1, if_neg c2] at hup
          exact Or.inl (e1.mp hup)
      · intro hre
        rcases hre with h | ⟨hA, hB⟩ | ⟨hA, hB⟩
        · rw [e1.mpr h]
        · have c1 : r1 = rp := e2.mpr hA
          have c2 : rq = r2 := e3.mpr hB
          rw [if_pos c1, if_neg (by rw [← c2]; exact fun hc => hne hc.symm)]
          exact c2
        · have c1 : r1 = rq := e4.mpr hA
          have c2 : rp = r2 := e5.mpr hB
          rw [if_neg (by rw [c1]; exact fun hc => hne hc.symm), if_pos c2.symm]
          exact c1
    · intro v hvw hB
      have hvne : v ≠ w := by
        intro hc
        subst hc
        rw [htype v hvw.2, if_pos rfl] at hB
        exact absurd hB (by decide)
      rw [htype v hvw.2, if_neg hvne] at hB
      exact (inv.blockedReach v hvw hB).mono
        (fun u2 v2 huv => (hGH u2 v2).mpr (Or.inl huv))
    · exact isAcyclic_sup_edge hGH inv.acyclic hnreach
  · rw [hcarve, if_neg hne]
    have hrr : rp = rq := not_ne_iff.mp hne
    have hlinkeq : ∀ p,
        linkAt size (setType size m w (some TileType.Blocked)) p = linkAt size m p :=
      fun p => linkAt_setType size m w _ p
    have hfr : ∀ (n : Nat) (p : Position),
        findRoot size (setType size m w (some TileType.Blocked)) n p =
          findRoot size m n p :=
      findRoot_congr size _ m hlinkeq
    have htype : ∀ p, InBounds size p →
        typeAt size (setType size m w (some TileType.Blocked)) p =
          if p = w then some TileType.Blocked else typeAt size m p := by
      intro p hp
      rw [typeAt_setType size m w _ p hw.2 hp inv.len]
    have hgeq : genGraph size (setType size m w (some TileType.Blocked)) =
        genGraph size m := by
      apply openGraph_congr size hodd
      intro p hpw
      by_cases hc : p = w
      · subst hc
        rw [htype p hpw.2, if_pos rfl, hwnone]
        rfl
      · rw [htype p hpw.2, if_neg hc]
    refine ⟨?_, ?_, ?_, ?_, ?_, ?_, ?_, ?_, ?_, ?_⟩
    · rw [length_setType]
      exact inv.len
    · intro p hp
      rw [htype p hp.2.2, if_neg (cell_ne_wall size p w hp hw)]
      exact inv.cellType p hp
    · intro p hp
      rw [htype p hp.2.2, if_neg (pillar_ne_wall size p w hp hw)]
      exact inv.pillarType p hp
    · intro v hv
      rw [htype v (hrestw v hv).2, if_neg (fun hc => hnotin (by rw [hc] at hv; exact hv))]
      exact inv.todoNone v (List.mem_cons_of_mem w hv)
    · intro v hvw hvnone
      have hvne : v ≠ w := by
        intro hc
        subst hc
        rw [htype v hvw.2, if_pos rfl] at hvnone
        exact Option.noConfusion hvnone
      rw [htype v hvw.2, if_neg hvne] at hvnone
      rcases List.mem_cons.mp (inv.noneTodo v hvw hvnone) with hc | hc
      · exact absurd hc hvne
      · exact hc
    · intro p hp
      rw [hlinkeq p]
      exact inv.linkCell p hp
    · intro p hp
      obtain ⟨r, hr⟩ := inv.forest p hp
      exact ⟨r, by rw [hfr]; exact findRoot_mono size m (k + 1) p r hr⟩
    · intro p q rp2 rq2 hp hq h1 h2
      rw [hfr] at h1 h2
      obtain ⟨r1, hr1⟩ := inv.forest p hp
      obtain ⟨r2, hr2⟩ := inv.forest q hq
      rw [findRoot_mono size m (k + 1) p r1 hr1] at h1
      rw [findRoot_mono size m (k + 1) q r2 hr2] at h2
      obtain rfl := Option.some_inj.mp h1
      obtain rfl := Option.some_inj.mp h2
      rw [hgeq]
      exact inv.rootIff p q r1 r2 hp hq hr1 hr2
    · intro v hvw hB
      rw [hgeq]
      by_cases hc : v = w
      · subst hc
        exact (inv.rootIff (wallP v) (wallQ v) rp rq hPc hQc hrp hrq).mp hrr
      · rw [htype v hvw.2, if_neg hc] at hB
        exact inv.blockedReach v hvw hB
    · rw [hgeq]
      exact inv.acyclic

/-- The invariant is preserved by folding the carve step over the whole
candidate list. -/
theorem genInv_fold (size : Nat) (hodd : size % 2 = 1) :
    ∀ (todo : List Position) (k : Nat) (m : List MazeGenerationTile),
      GenInv size k todo m → todo.Nodup → (∀ v ∈ todo, IsWall size v) →
      k + todo.length ≤ size * size →
      GenInv size (k + todo.length) [] (todo.foldl (carveStep size) m) := by
  intro todo
  induction todo with
  | nil => intro k m inv _ _ _; simpa using inv
  | cons w rest ih =>
    intro k m inv hnd hwl hbound
    rw [List.length_cons] at hbound
    rw [List.foldl_cons]
    have hstep := genInv_step size hodd k w rest m inv
      (hwl w (List.mem_cons_self w rest)) (List.nodup_cons.mp hnd).1
      (fun v hv => hwl v (List.mem_cons_of_mem w hv)) (by omega)
    have hres := ih (k + 1) (carveStep size m w) hstep (List.nodup_cons.mp hnd).2
      (fun v hv => hwl v (List.mem_cons_of_mem w hv)) (by omega)
    rw [show k + (w :: rest).length = k + 1 + rest.length by
      rw [List.length_cons]; omega]
    exact hres

/-- The row-major position grid has no duplicates. -/
theorem posgrid_nodup (size : Nat) :
    ∀ n, ((List.range n).flatMap (fun i =>
      (List.range size).map (fun j => (⟨j, i⟩ : Position)))).Nodup := by
  intro n
  induction n with
  | zero => simp
  | succ n ih =>
    rw [List.range_succ, List.flatMap_append, List.flatMap_cons, List.flatMap_nil,
      List.append_nil, List.nodup_append]
    refine ⟨ih, ?_, ?_⟩
    · apply List.Nodup.map
      · intro a b h
        exact congrArg Position.x h
      · exact List.nodup_range size
    · intro a ha hb
      simp only [List.mem_flatMap, List.mem_map, List.mem_range] at ha hb
      obtain ⟨i, hi, j, hj, rfl⟩ := ha
      obtain ⟨j2, hj2, hc⟩ := hb
      rw [Position.mk.injEq] at hc
      omega

/-- The shuffled wall-candidate list has no duplicates. -/
theorem wallPositions_nodup (size : Nat) : (wallPositions size).Nodup := by
  have hmap : ((genInit size).map (fun t => t.position)).Nodup := by
    rw [genInit, List.map_flatMap]
    simp only [List.map_map]
    exact posgrid_nodup size size
  have hsub : List.Sublist (wallPositions size)
      ((genInit size).map (fun t => t.position)) := by
    rw [wallPositions, neither_map]
    exact (List.filter_sublist _).map _
  exact hmap.sublist hsub

/-- In a state where every wall is decided and blocked walls join already
reachable cells, horizontally neighbouring cell vertices are reachable. -/
theorem horiz_step_reachable (size : Nat) (hodd : size % 2 = 1)
    (m : List MazeGenerationTile)
    (hdec : ∀ w, IsWall size w → typeAt size m w = some TileType.Open ∨
      typeAt size m w = some TileType.Blocked)
    (hblock : ∀ w, IsWall size w → typeAt size m w = some TileType.Blocked →
      (genGraph size m).Reachable (toV size (wallP w)) (toV size (wallQ w)))
    (u v : Fin (nc size) × Fin (nc size)) (h2 : u.2 = v.2)
    (hA : u.1.val + 1 = v.1.val) :
    (genGraph size m).Reachable u v := by
  have hww := mid_horiz_wall size hodd u v (Or.inl hA)
  rcases hdec _ hww with hOpen | hBlocked
  · refine SimpleGraph.Adj.reachable ?_
    rw [genGraph_adj]
    exact Or.inl ⟨h2, Or.inl hA, by rw [decide_eq_true_iff]; exact hOpen⟩
  · have hpair := hblock _ hww hBlocked
    have hv2 : u.2.val = v.2.val := by rw [h2]
    have hye : ((⟨u.1.val + v.1.val, 2 * u.2.val⟩ : Position)).y % 2 = 0 := by
      show 2 * u.2.val % 2 = 0
      omega
    have hP : wallP ⟨u.1.val + v.1.val, 2 * u.2.val⟩ =
        ⟨u.1.val + v.1.val + 1, 2 * u.2.val⟩ := by
      rw [wallP, if_pos hye]
    have hQ : wallQ ⟨u.1.val + v.1.val, 2 * u.2.val⟩ =
        ⟨u.1.val + v.1.val - 1, 2 * u.2.val⟩ := by
      rw [wallQ, if_pos hye]
    have hp : (⟨u.1.val + v.1.val + 1, 2 * u.2.val⟩ : Position) = pos2 size v := by
      rw [pos2, Position.mk.injEq]
      exact ⟨by omega, by omega⟩
    have hq : (⟨u.1.val + v.1.val - 1, 2 * u.2.val⟩ : Position) = pos2 size u := by
      rw [pos2, Position.mk.injEq]
      exact ⟨by omega, rfl⟩
    rw [hP, hp, toV_pos2, hQ, hq, toV_pos2] at hpair
    exact hpair.symm

/-- Vertically neighbouring cell vertices are reachable (same setting). -/
theorem vert_step_reachable (size : Nat) (hodd : size % 2 = 1)
    (m : List MazeGenerationTile)
    (hdec : ∀ w, IsWall size w → typeAt size m w = some TileType.Open ∨
      typeAt size m w = some TileType.Blocked)
    (hblock : ∀ w, IsWall size w → typeAt size m w = some TileType.Blocked →
      (genGraph size m).Reachable (toV size (wallP w)) (toV size (wallQ w)))
    (u v : Fin (nc size) × Fin (nc size)) (h1 : u.1 = v.1)
    (hA : u.2.val + 1 = v.2.val) :
    (genGraph size m).Reachable u v := by
  have hww := mid_vert_wall size hodd u v (Or.inl hA)
  rcases hdec _ hww with hOpen | hBlocked
  · refine SimpleGraph.Adj.reachable ?_
    rw [genGraph_adj]
    exact Or.inr ⟨h1, Or.inl hA, by rw [decide_eq_true_iff]; exact hOpen⟩
  · have hpair := hblock _ hww hBlocked
    have hv1 : u.1.val = v.1.val := by rw [h1]
    have hyo : ¬((⟨2 * u.1.val, u.2.val + v.2.val⟩ : Position)).y % 2 = 0 := by
      show ¬(u.2.val + v.2.val) % 2 = 0
      omega
    have hP : wallP ⟨2 * u.1.val, u.2.val + v.2.val⟩ =
        ⟨2 * u.1.val, u.2.val + v.2.val - 1⟩ := by
      rw [wallP, if_neg hyo]
    have hQ : wallQ ⟨2 * u.1.val, u.2.val + v.2.val⟩ =
        ⟨2 * u.1.val, u.2.val + v.2.val + 1⟩ := by
      rw [wallQ, if_neg hyo]
    have hp : (⟨2 * u.1.val, u.2.val + v.2.val - 1⟩ : Position) = pos2 size u := by
      rw [pos2, Position.mk.injEq]
      exact ⟨rfl, by omega⟩
    have hq : (⟨2 * u.1.val, u.2.val + v.2.val + 1⟩ : Position) = pos2 size v := by
      rw [pos2, Position.mk.injEq]
      exact ⟨by omega, by omega⟩
    rw [hP, hp, toV_pos2, hQ, hq, toV_pos2] at hpair
    exact hpair

/-- Every cell vertex reaches the origin (same setting). -/
theorem all_reachable_origin (size : Nat) (hodd : size % 2 = 1)
    (m : List MazeGenerationTile)
    (hdec : ∀ w, IsWall size w → typeAt size m w = some TileType.Open ∨
      typeAt size m w = some TileType.Blocked)
    (hblock : ∀ w, IsWall size w → typeAt size m w = some TileType.Blocked →
      (genGraph size m).Reachable (toV size (wallP w)) (toV size (wallQ w))) :
    ∀ v : Fin (nc size) × Fin (nc size),
      (genGraph size m).Reachable v
        (⟨0, Nat.succ_pos _⟩, ⟨0, Nat.succ_pos _⟩) := by
  have main : ∀ (n : Nat) (v : Fin (nc size) × Fin (nc size)),
      v.1.val + v.2.val = n →
      (genGraph size m).Reachable v (⟨0, Nat.succ_pos _⟩, ⟨0, Nat.succ_pos _⟩) := by
    intro n
    induction n using Nat.strong_induction_on with
    | _ n ih =>
      intro v hv
      by_cases h1 : v.1.val = 0
      · by_cases h2 : v.2.val = 0
        · have hveq : v = (⟨0, Nat.succ_pos _⟩, ⟨0, Nat.succ_pos _⟩) := by
            rw [Prod.ext_iff]
            exact ⟨Fin.ext h1, Fin.ext h2⟩
          rw [hveq]
        · have hstep := vert_step_reachable size hodd m hdec hblock
            (v.1, ⟨v.2.val - 1, by omega⟩) v rfl (by show v.2.val - 1 + 1 = v.2.val; omega)
          have hprev := ih (v.1.val + (v.2.val - 1)) (by omega)
            (v.1, ⟨v.2.val - 1, by omega⟩) rfl
          exact hstep.symm.trans hprev
      · have hstep := horiz_step_reachable size hodd m hdec hblock
          (⟨v.1.val - 1, by omega⟩, v.2) v rfl (by show v.1.val - 1 + 1 = v.1.val; omega)
        have hprev := ih ((v.1.val - 1) + v.2.val) (by omega)
          (⟨v.1.val - 1, by omega⟩, v.2) rfl
        exact hstep.symm.trans hprev
  intro v
  exact main (v.1.val + v.2.val) v rfl

/-- There are at most `size * size` wall candidates. -/
theorem wallPositions_length_le (size : Nat) :
    (wallPositions size).length ≤ size * size := by
  rw [wallPositions, List.length_map, neither_map]
  calc ((genInit size).filter fun t => t.tile_type.isNone).length
      ≤ (genInit size).length := List.length_filter_le _ _
  _ = size * size := genInit_length size

/-- The final tile list induces the same cell graph as the working grid it was
flattened from. -/
theorem mazeGraph_eq_genGraph (size : Nat) (hodd : size % 2 = 1)
    (g : List MazeGenerationTile) (hlen : g.length = size * size) :
    mazeGraph size (g.map fun t =>
      { tile_type := t.tile_type.getD TileType.Blocked
        visibility := TileVisibility.Hidden }) = genGraph size g := by
  apply openGraph_congr size hodd
  intro p hpw
  have hidx : idxOf size p < g.length := by
    rw [hlen]
    exact idxOf_lt size p hpw.2
  rw [getD_map g _ (idxOf size p) default default hidx]
  rw [show typeAt size g p = (g.getD (idxOf size p) default).tile_type from rfl]
  cases hvt : (g.getD (idxOf size p) default).tile_type with
  | none => rfl
  | some tt => cases tt <;> rfl

/-- C1: for every odd size and every order of the shuffled wall-candidate
list, the generated grid is a perfect maze: the graph of cells (even/even
positions) joined through Open wall tiles is a tree — connected and acyclic —
so there is exactly one simple path between any two cells; the vertex set has
exactly `((size + 1) / 2) ^ 2` cells. -/
theorem generated_maze_is_perfect (size : Nat) (shuffled : List Position)
    (tiles : List Tile) (hodd : size % 2 = 1)
    (hperm : shuffled.Perm (wallPositions size))
    (hgen : generate_random_map size shuffled = some tiles) :
    (mazeGraph size tiles).IsTree ∧
    (∀ u v : Fin (nc size) × Fin (nc size),
      ∃! p : (mazeGraph size tiles).Walk u v, p.IsPath) ∧
    Fintype.card (Fin (nc size) × Fin (nc size)) =
      ((size + 1) / 2) * ((size + 1) / 2) := by
  have hgen2 : (shuffled.foldl (carveStep size) (genInit size)).map (fun t =>
      { tile_type := t.tile_type.getD TileType.Blocked
        visibility := TileVisibility.Hidden }) = tiles := by
    have h := hgen
    rw [generate_random_map, if_pos hodd] at h
    exact Option.some_inj.mp h
  subst hgen2
  have base := genInv_init size hodd
  have inv0 : GenInv size 0 shuffled (genInit size) :=
    { base with
      todoNone := fun w hw => base.todoNone w (hperm.mem_iff.mp hw)
      noneTodo := fun w hww hn => hperm.mem_iff.mpr (base.noneTodo w hww hn) }
  have hnd : shuffled.Nodup := hperm.nodup_iff.mpr (wallPositions_nodup size)
  have hwl : ∀ v ∈ shuffled, IsWall size v := fun v hv =>
    (mem_wallPositions size v).mp (hperm.mem_iff.mp hv)
  have hbound : 0 + shuffled.length ≤ size * size := by
    rw [hperm.length_eq]
    have h1 := wallPositions_length_le size
    omega
  have invF := genInv_fold size hodd shuffled 0 (genInit size) inv0 hnd hwl hbound
  have hdec : ∀ w, IsWall size w →
      typeAt size (shuffled.foldl (carveStep size) (genInit size)) w =
        some TileType.Open ∨
      typeAt size (shuffled.foldl (carveStep size) (genInit size)) w =
        some TileType.Blocked := by
    intro w hw
    cases hvt : typeAt size (shuffled.foldl (carveStep size) (genInit size)) w with
    | none => exact absurd (invF.noneTodo w hw hvt) (List.not_mem_nil w)
    | some tt =>
      cases tt with
      | Open => exact Or.inl rfl
      | Blocked => exact Or.inr rfl
  have hgraph := mazeGraph_eq_genGraph size hodd
    (shuffled.foldl (carveStep size) (genInit size)) invF.len
  have hconn : (genGraph size (shuffled.foldl (carveStep size)
      (genInit size))).Connected := by
    rw [SimpleGraph.connected_iff]
    refine ⟨?_, ⟨(⟨0, Nat.succ_pos _⟩, ⟨0, Nat.succ_pos _⟩)⟩⟩
    intro u v
    exact (all_reachable_origin size hodd _ hdec invF.blockedReach u).trans
      (all_reachable_origin size hodd _ hdec invF.blockedReach v).symm
  have htree : (genGraph size (shuffled.foldl (carveStep size)
      (genInit size))).IsTree := ⟨hconn, invF.acyclic⟩
  rw [hgraph]
  refine ⟨htree, ?_, ?_⟩
  · exact (SimpleGraph.isTree_iff_existsUnique_path.mp htree).2
  · have hcard : Fintype.card (Fin (nc size) × Fin (nc size)) = nc size * nc size := by
      simp [Fintype.card_prod]
    rw [hcard, nc]
    have hh : size / 2 + 1 = (size + 1) / 2 := by omega
    rw [hh]

/-- Witness for C1 at a concrete input: size 3, wall candidates in grid order.
Carving opens the walls at `(1,0)`, `(0,1)`, `(2,1)` and leaves `(1,2)`
blocked: a spanning tree over the four cells. -/
theorem generated_maze_is_perfect_witness :
    (mazeGraph 3 [Tile.mk TileType.Open TileVisibility.Hidden,
      Tile.mk TileType.Open TileVisibility.Hidden,
      Tile.mk TileType.Open TileVisibility.Hidden,
      Tile.mk TileType.Open TileVisibility.Hidden,
      Tile.mk TileType.Blocked TileVisibility.Hidden,
      Tile.mk TileType.Open TileVisibility.Hidden,
      Tile.mk TileType.Open TileVisibility.Hidden,
      Tile.mk TileType.Blocked TileVisibility.Hidden,
      Tile.mk TileType.Open TileVisibility.Hidden]).IsTree ∧
    (∀ u v : Fin (nc 3) × Fin (nc 3),
      ∃! p : (mazeGraph 3 [Tile.mk TileType.Open TileVisibility.Hidden,
        Tile.mk TileType.Open TileVisibility.Hidden,
        Tile.mk TileType.Open TileVisibility.Hidden,
        Tile.mk TileType.Open TileVisibility.Hidden,
        Tile.mk TileType.Blocked TileVisibility.Hidden,
        Tile.mk TileType.Open TileVisibility.Hidden,
        Tile.mk TileType.Open TileVisibility.Hidden,
        Tile.mk TileType.Blocked TileVisibility.Hidden,
        Tile.mk TileType.Open TileVisibility.Hidden]).Walk u v, p.IsPath) ∧
    Fintype.card (Fin (nc 3) × Fin (nc 3)) = ((3 + 1) / 2) * ((3 + 1) / 2) :=
  generated_maze_is_perfect 3 (wallPositions 3)
    [Tile.mk TileType.Open TileVisibility.Hidden,
      Tile.mk TileType.Open TileVisibility.Hidden,
      Tile.mk TileType.Open TileVisibility.Hidden,
      Tile.mk TileType.Open TileVisibility.Hidden,
      Tile.mk TileType.Blocked TileVisibility.Hidden,
      Tile.mk TileType.Open TileVisibility.Hidden,
      Tile.mk TileType.Open TileVisibility.Hidden,
      Tile.mk TileType.Blocked TileVisibility.Hidden,
      Tile.mk TileType.Open TileVisibility.Hidden] rfl (List.Perm.refl _) (by decide)
